import Mathlib

/-!
Verification development for the steadykey library: a shallow embedding of
the canonicalization algorithm (`src/utils.ts`) and the registration manager
(`src/idempotency-manager.ts`), with theorems checking the natural-language
specification against the code.

Modelling conventions, stated once here and referenced by the definitions:

* JavaScript numbers are modelled as integers (`Int`): every claim under
  check is independent of non-integer float formatting, and `Int` rendering
  in JSON (`toString`) agrees with `JSON.stringify` for safe integers.
  TTL arguments, where the code distinguishes integer from non-integer
  numbers via `Number.isInteger`, are modelled as `Rat` (`q.den = 1` holds
  exactly for integers).
* The cryptographic digest (`crypto.createHash(...).update(s).digest("hex")`)
  is modelled as an arbitrary function parameter `hashFn : HashAlgorithm →
  String → String`; every theorem below depends only on the digest being a
  deterministic function of the algorithm and the input string.
* Store values travel as strings in the code, produced and consumed by
  standard JSON (`JSON.stringify` / `JSON.parse`).  The model keeps store
  values at the parsed-JSON-document level (`CJson`); the string layer is a
  standard lossless JSON round-trip and is modelled by `jsonStringify` where
  a byte-level statement is needed (canonicalization).
* `String.prototype.localeCompare`, used by the Map and plain-object key
  sorts, is modelled for the default (root) collation restricted to ASCII
  strings: primary weight folds letter case (so "a" < "B" because a < b at
  primary level), ties broken by a tertiary weight placing lowercase before
  uppercase.  Characters outside ASCII letters keep their code point as
  primary weight.  This matches ICU root collation on ASCII alphanumeric
  keys, which is the domain all concrete statements below use.
* `Array.prototype.sort` (guaranteed stable with a consistent comparator
  since ES2019) is modelled by the stable `List.insertionSort`.
-/

/-- Error kinds of the library (`errors.ts` declares the classes
`IdempotencyError`, `IdempotencySerializationError`,
`IdempotencyCollisionError`; only their distinctness and messages matter to
the manager, which this inductive captures). -/
inductive IdemErr where
  | generic (msg : String)
  | serialization (msg : String)
  | collision (msg : String)
deriving DecidableEq, Repr

/-- Message carried by an error, as `error.message` in the source. -/
def IdemErr.msgOf : IdemErr → String
  | .generic m => m
  | .serialization m => m
  | .collision m => m

/-- Collision errors are a distinguishable kind (`instanceof
IdempotencyCollisionError`). -/
def IdemErr.isCollision : IdemErr → Bool
  | .collision _ => true
  | _ => false

/-! ### Lexicographic comparison of weight lists -/

/-- Lexicographic comparison of two lists of natural-number weights. -/
def cmpN : List Nat → List Nat → Ordering
  | [], [] => .eq
  | [], _ :: _ => .lt
  | _ :: _, [] => .gt
  | a :: as, b :: bs =>
    if a < b then .lt else if b < a then .gt else cmpN as bs

theorem cmpN_eq_iff : ∀ {xs ys : List Nat}, cmpN xs ys = .eq ↔ xs = ys := by
  intro xs
  induction xs with
  | nil => intro ys; cases ys <;> simp [cmpN]
  | cons a as ih =>
    intro ys
    cases ys with
    | nil => simp [cmpN]
    | cons b bs =>
      by_cases h1 : a < b
      · simp [cmpN, h1]; omega
      · by_cases h2 : b < a
        · simp [cmpN, h1, h2]; omega
        · have hab : a = b := by omega
          simp [cmpN, h1, h2, hab, ih]

theorem cmpN_swap : ∀ (xs ys : List Nat), cmpN ys xs = (cmpN xs ys).swap := by
  intro xs
  induction xs with
  | nil => intro ys; cases ys <;> simp [cmpN, Ordering.swap]
  | cons a as ih =>
    intro ys
    cases ys with
    | nil => simp [cmpN, Ordering.swap]
    | cons b bs =>
      by_cases h1 : a < b
      · have h2 : ¬ b < a := by omega
        simp [cmpN, h1, h2, Ordering.swap]
      · by_cases h2 : b < a
        · simp [cmpN, h1, h2, Ordering.swap]
        · simp [cmpN, h1, h2, ih]

theorem cmpN_le_trans : ∀ {xs ys zs : List Nat},
    cmpN xs ys ≠ .gt → cmpN ys zs ≠ .gt → cmpN xs zs ≠ .gt := by
  intro xs
  induction xs with
  | nil =>
    intro ys zs _ _
    cases zs <;> simp [cmpN]
  | cons a as ih =>
    intro ys zs h1 h2
    cases ys with
    | nil => simp [cmpN] at h1
    | cons b bs =>
      cases zs with
      | nil => simp [cmpN] at h2
      | cons c cs =>
        by_cases hab : a < b
        · by_cases hbc : b < c
          · have hac : a < c := by omega
            simp [cmpN, hac]
          · by_cases hcb : c < b
            · simp [cmpN, hbc, hcb] at h2
            · have hbc' : b = c := by omega
              have hac : a < c := by omega
              simp [cmpN, hac]
        · by_cases hba : b < a
          · simp [cmpN, hab, hba] at h1
          · have hab' : a = b := by omega
            subst hab'
            by_cases hbc : a < c
            · simp [cmpN, hbc]
            · by_cases hcb : c < a
              · simp [cmpN, hbc, hcb] at h2
              · have : a = c := by omega
                subst this
                simp [cmpN, hab, hba] at h1 h2 ⊢
                exact ih h1 h2

/-! ### The localeCompare model -/

/-- Primary collation weight of a character: ASCII uppercase letters fold to
their lowercase counterpart, everything else keeps its code point. -/
def primChar (c : Char) : Nat :=
  if 'A' ≤ c ∧ c ≤ 'Z' then c.toNat + 32 else c.toNat

/-- Tertiary collation weight: lowercase (and everything that is not an
ASCII uppercase letter) sorts before uppercase on primary ties. -/
def tertChar (c : Char) : Nat :=
  if 'A' ≤ c ∧ c ≤ 'Z' then 1 else 0

def strPrim (s : String) : List Nat := s.data.map primChar

def strTert (s : String) : List Nat := s.data.map tertChar

/-- Model of `a.localeCompare(b)` (default/root locale, ASCII domain):
compare primary weights lexicographically, break ties with tertiary
weights. -/
def localeCmp (a b : String) : Ordering :=
  (cmpN (strPrim a) (strPrim b)).then (cmpN (strTert a) (strTert b))

/-- Relation `a.localeCompare(b) <= 0`, under which a stable sort with
comparator `(a, b) => a.localeCompare(b)` orders its output. -/
def localeLe (a b : String) : Prop := localeCmp a b ≠ .gt

/-- Relation `a.localeCompare(b) < 0`. -/
def localeLt (a b : String) : Prop := localeCmp a b = .lt

instance : DecidableRel localeLe := fun a b =>
  inferInstanceAs (Decidable (localeCmp a b ≠ .gt))

instance : DecidableRel localeLt := fun a b =>
  inferInstanceAs (Decidable (localeCmp a b = .lt))

theorem charWeights_inj {c d : Char}
    (hp : primChar c = primChar d) (ht : tertChar c = tertChar d) : c = d := by
  simp only [primChar, tertChar] at hp ht
  by_cases hc : 'A' ≤ c ∧ c ≤ 'Z' <;> by_cases hd : 'A' ≤ d ∧ d ≤ 'Z' <;>
    simp [hc, hd] at hp ht
  all_goals
    have h' : c.toNat = d.toNat := by omega
  all_goals
    exact Char.eq_of_val_eq (UInt32.ext h')

theorem weights_lists_inj : ∀ {l₁ l₂ : List Char},
    l₁.map primChar = l₂.map primChar → l₁.map tertChar = l₂.map tertChar →
    l₁ = l₂ := by
  intro l₁
  induction l₁ with
  | nil => intro l₂ hp _; cases l₂ <;> simp_all
  | cons c cs ih =>
    intro l₂ hp ht
    cases l₂ with
    | nil => simp at hp
    | cons d ds =>
      simp only [List.map, List.cons.injEq] at hp ht
      exact List.cons_eq_cons.mpr
        ⟨charWeights_inj hp.1 ht.1, ih hp.2 ht.2⟩

theorem cmpN_lt_trans {xs ys zs : List Nat}
    (h1 : cmpN xs ys = .lt) (h2 : cmpN ys zs = .lt) : cmpN xs zs = .lt := by
  have hle : cmpN xs zs ≠ .gt :=
    @cmpN_le_trans xs ys zs (by simp [h1]) (by simp [h2])
  rcases h : cmpN xs zs with _ | _ | _
  · rfl
  · exfalso
    have hxz := cmpN_eq_iff.mp h
    subst hxz
    rw [cmpN_swap xs ys, h1] at h2
    exact absurd h2 (by simp [Ordering.swap])
  · exact absurd h hle

theorem ordThen_eq {o p : Ordering} : o.then p = .eq ↔ o = .eq ∧ p = .eq := by
  rcases o <;> simp [Ordering.then]

theorem localeCmp_eq_iff {a b : String} : localeCmp a b = .eq ↔ a = b := by
  constructor
  · intro h
    unfold localeCmp at h
    obtain ⟨hp, ht⟩ := ordThen_eq.mp h
    have hdata : a.data = b.data :=
      weights_lists_inj (cmpN_eq_iff.mp hp) (cmpN_eq_iff.mp ht)
    cases a; cases b; exact congrArg String.mk hdata
  · intro h; subst h
    unfold localeCmp
    rw [cmpN_eq_iff.mpr rfl, cmpN_eq_iff.mpr rfl]; rfl

theorem localeCmp_swap (a b : String) : localeCmp b a = (localeCmp a b).swap := by
  unfold localeCmp
  rw [cmpN_swap (strPrim a), cmpN_swap (strTert a)]
  rcases cmpN (strPrim a) (strPrim b) <;>
    rcases cmpN (strTert a) (strTert b) <;> rfl

theorem localeLe_total (a b : String) : localeLe a b ∨ localeLe b a := by
  unfold localeLe
  rw [localeCmp_swap a b]
  rcases localeCmp a b <;> simp [Ordering.swap]

theorem localeCmp_lt_iff {a b : String} :
    localeCmp a b = .lt ↔
      (cmpN (strPrim a) (strPrim b) = .lt ∨
        (strPrim a = strPrim b ∧ cmpN (strTert a) (strTert b) = .lt)) := by
  unfold localeCmp
  rcases hp : cmpN (strPrim a) (strPrim b) with _ | _ | _
  · simp [Ordering.then]
  · have : strPrim a = strPrim b := cmpN_eq_iff.mp hp
    simp [Ordering.then, this]
  · have : strPrim a ≠ strPrim b := fun h => by
      rw [cmpN_eq_iff.mpr h] at hp; exact absurd hp (by simp)
    simp [Ordering.then, this]

theorem localeLe_iff {a b : String} :
    localeLe a b ↔ (localeCmp a b = .lt ∨ localeCmp a b = .eq) := by
  unfold localeLe
  rcases localeCmp a b <;> simp

theorem localeLe_trans {a b c : String} :
    localeLe a b → localeLe b c → localeLe a c := by
  intro h1 h2
  rcases localeLe_iff.mp h1 with h1' | h1'
  · rcases localeLe_iff.mp h2 with h2' | h2'
    · -- lt, lt
      apply localeLe_iff.mpr; left
      rcases localeCmp_lt_iff.mp h1' with ha | ⟨ha, ha'⟩ <;>
        rcases localeCmp_lt_iff.mp h2' with hb | ⟨hb, hb'⟩
      · exact localeCmp_lt_iff.mpr (.inl (cmpN_lt_trans ha hb))
      · exact localeCmp_lt_iff.mpr (.inl (hb ▸ ha))
      · exact localeCmp_lt_iff.mpr (.inl (ha ▸ hb))
      · exact localeCmp_lt_iff.mpr (.inr ⟨ha.trans hb, cmpN_lt_trans ha' hb'⟩)
    · -- lt, eq
      have := localeCmp_eq_iff.mp h2'
      subst this
      exact localeLe_iff.mpr (.inl h1')
  · have := localeCmp_eq_iff.mp h1'
    subst this
    exact h2

theorem localeLt_iff_le_ne {a b : String} :
    localeLt a b ↔ localeLe a b ∧ a ≠ b := by
  unfold localeLt localeLe
  constructor
  · intro h
    refine ⟨by simp [h], fun hab => ?_⟩
    subst hab
    rw [localeCmp_eq_iff.mpr rfl] at h
    exact absurd h (by simp)
  · intro ⟨h1, h2⟩
    rcases h : localeCmp a b with _ | _ | _
    · rfl
    · exact absurd (localeCmp_eq_iff.mp h) h2
    · exact absurd h h1

theorem localeLt_asymm {a b : String} (h1 : localeLt a b) (h2 : localeLt b a) :
    False := by
  unfold localeLt at h1 h2
  rw [localeCmp_swap a b, h1] at h2
  simp [Ordering.swap] at h2

/-! ### Code-unit (default `Array.prototype.sort`) string comparison -/

/-- UTF-16 code units of a character (JS strings are UTF-16). -/
def utf16Units (c : Char) : List Nat :=
  if c.toNat < 65536 then [c.toNat]
  else [55296 + (c.toNat - 65536) / 1024, 56320 + (c.toNat - 65536) % 1024]

/-- UTF-16 code units of a string. -/
def strUnits (s : String) : List Nat := s.data.flatMap utf16Units

/-- Code-unit-wise string comparison: the default comparison of
`Array.prototype.sort()` on strings and of the JS `<` operator. -/
def jsCmp (a b : String) : Ordering := cmpN (strUnits a) (strUnits b)

def jsLe (a b : String) : Prop := jsCmp a b ≠ .gt

def jsLt (a b : String) : Prop := jsCmp a b = .lt

instance : DecidableRel jsLe := fun a b =>
  inferInstanceAs (Decidable (jsCmp a b ≠ .gt))

instance : DecidableRel jsLt := fun a b =>
  inferInstanceAs (Decidable (jsCmp a b = .lt))

theorem utf16Units_ne_nil (c : Char) : utf16Units c ≠ [] := by
  unfold utf16Units
  by_cases h : c.toNat < 65536 <;> simp [h]

theorem char_valid_toNat (c : Char) :
    c.toNat < 55296 ∨ (57343 < c.toNat ∧ c.toNat < 1114112) := by
  have h := c.valid
  rcases h with h | h
  · exact .inl h
  · exact .inr ⟨h.1, h.2⟩

theorem utf16Units_head_cases (c : Char) :
    (∃ u, utf16Units c = [u] ∧ (u < 55296 ∨ 57343 < u)) ∨
    (∃ u v, utf16Units c = [u, v] ∧ 55296 ≤ u ∧ u < 56320) := by
  have hv := char_valid_toNat c
  by_cases h : c.toNat < 65536
  · exact .inl ⟨c.toNat, by simp [utf16Units, h], by omega⟩
  · have hdiv : (c.toNat - 65536) / 1024 < 1024 := by
      apply Nat.div_lt_of_lt_mul
      omega
    exact .inr ⟨55296 + (c.toNat - 65536) / 1024, 56320 + (c.toNat - 65536) % 1024,
      by simp [utf16Units, h], by omega, by omega⟩

theorem utf16Units_inj_head : ∀ {c d : Char} {r₁ r₂ : List Nat},
    utf16Units c ++ r₁ = utf16Units d ++ r₂ → c = d ∧ r₁ = r₂ := by
  intro c d r₁ r₂ h
  rcases utf16Units_head_cases c with ⟨u, hu, hur⟩ | ⟨u, v, huv, hu1, hu2⟩ <;>
    rcases utf16Units_head_cases d with ⟨w, hw, hwr⟩ | ⟨w, x, hwx, hw1, hw2⟩
  · rw [hu, hw] at h
    simp only [List.cons_append, List.nil_append, List.cons.injEq] at h
    obtain ⟨huw, hr⟩ := h
    refine ⟨?_, hr⟩
    have : c.toNat = d.toNat := by
      unfold utf16Units at hu hw
      by_cases h1 : c.toNat < 65536 <;> simp [h1] at hu <;>
        by_cases h2 : d.toNat < 65536 <;> simp [h2] at hw <;> omega
    exact Char.eq_of_val_eq (UInt32.ext this)
  · rw [hu, hwx] at h
    simp only [List.cons_append, List.nil_append, List.cons.injEq] at h
    exfalso
    omega
  · rw [huv, hw] at h
    simp only [List.cons_append, List.nil_append, List.cons.injEq] at h
    exfalso
    omega
  · rw [huv, hwx] at h
    simp only [List.cons_append, List.nil_append, List.cons.injEq] at h
    obtain ⟨huw, hvx, hr⟩ := h
    refine ⟨?_, hr⟩
    unfold utf16Units at huv hwx
    by_cases h1 : c.toNat < 65536
    · simp [h1] at huv
    · by_cases h2 : d.toNat < 65536
      · simp [h2] at hwx
      · simp [h1] at huv
        simp [h2] at hwx
        have hc := Nat.div_add_mod (c.toNat - 65536) 1024
        have hd := Nat.div_add_mod (d.toNat - 65536) 1024
        have : c.toNat = d.toNat := by omega
        exact Char.eq_of_val_eq (UInt32.ext this)

theorem flatMap_utf16_inj : ∀ {l₁ l₂ : List Char},
    l₁.flatMap utf16Units = l₂.flatMap utf16Units → l₁ = l₂ := by
  intro l₁
  induction l₁ with
  | nil =>
    intro l₂ h
    cases l₂ with
    | nil => rfl
    | cons d ds =>
      simp [List.flatMap_cons] at h
      exact absurd h.1 (utf16Units_ne_nil d)
  | cons c cs ih =>
    intro l₂ h
    cases l₂ with
    | nil =>
      simp [List.flatMap_cons] at h
      exact absurd h.1 (utf16Units_ne_nil c)
    | cons d ds =>
      simp only [List.flatMap_cons] at h
      obtain ⟨hcd, hr⟩ := utf16Units_inj_head h
      exact List.cons_eq_cons.mpr ⟨hcd, ih hr⟩

theorem strUnits_inj {a b : String} (h : strUnits a = strUnits b) : a = b := by
  have := @flatMap_utf16_inj a.data b.data h
  cases a; cases b; exact congrArg String.mk this

theorem jsCmp_swap (a b : String) : jsCmp b a = (jsCmp a b).swap :=
  cmpN_swap _ _

theorem jsLe_total (a b : String) : jsLe a b ∨ jsLe b a := by
  unfold jsLe
  rw [jsCmp_swap a b]
  rcases jsCmp a b <;> simp [Ordering.swap]

theorem jsLe_trans {a b c : String} (h1 : jsLe a b) (h2 : jsLe b c) :
    jsLe a c :=
  cmpN_le_trans h1 h2

theorem jsLe_antisymm {a b : String} (h1 : jsLe a b) (h2 : jsLe b a) :
    a = b := by
  unfold jsLe jsCmp at h1 h2
  rw [cmpN_swap] at h2
  apply strUnits_inj
  apply cmpN_eq_iff.mp
  rcases h : cmpN (strUnits a) (strUnits b) with _ | _ | _
  · rw [h] at h2; simp [Ordering.swap] at h2
  · rfl
  · exact absurd h h1

instance : IsTotal String jsLe := ⟨jsLe_total⟩

instance : IsTrans String jsLe := ⟨fun _ _ _ => jsLe_trans⟩

instance : IsAntisymm String jsLe := ⟨fun _ _ => jsLe_antisymm⟩

/-! ### Sort models: keyed entries sorted with localeCompare, strings
sorted with the default comparator -/

/-- Ordering relation of the entry sorts in `normalize`
(`.sort(([keyA], [keyB]) => keyA.localeCompare(keyB))`). -/
def keyLe {α : Type} (p q : String × α) : Prop := localeLe p.1 q.1

/-- Strictly-below-by-key; used to state strict sortedness of outputs. -/
def keyLt {α : Type} (p q : String × α) : Prop := localeLt p.1 q.1

instance {α : Type} : DecidableRel (keyLe (α := α)) := fun p q =>
  inferInstanceAs (Decidable (localeLe p.1 q.1))

instance {α : Type} : DecidableRel (keyLt (α := α)) := fun p q =>
  inferInstanceAs (Decidable (localeLt p.1 q.1))

instance {α : Type} : IsTotal (String × α) keyLe :=
  ⟨fun p q => localeLe_total p.1 q.1⟩

instance {α : Type} : IsTrans (String × α) keyLe :=
  ⟨fun _ _ _ h1 h2 => localeLe_trans h1 h2⟩

instance {α : Type} : IsAntisymm (String × α) keyLt :=
  ⟨fun p q h1 h2 => absurd trivial (fun _ => localeLt_asymm h1 h2)⟩

instance {α : Type} : IsTrans (String × α) keyLt :=
  ⟨fun _ _ _ h1 h2 => by
    unfold keyLt at h1 h2 ⊢
    rw [localeLt_iff_le_ne] at h1 h2 ⊢
    refine ⟨localeLe_trans h1.1 h2.1, fun he => ?_⟩
    rw [he] at h1
    exact localeLt_asymm (localeLt_iff_le_ne.mpr h1) (localeLt_iff_le_ne.mpr h2)⟩

/-- Model of `entries.sort(([keyA], [keyB]) => keyA.localeCompare(keyB))`:
the stable sort of a key-value list under the localeCompare order. -/
def sortKeyed {α : Type} (l : List (String × α)) : List (String × α) :=
  List.insertionSort keyLe l

/-- Model of `strings.sort()` (default comparator: code-unit comparison). -/
def sortStringsJs (l : List String) : List String :=
  List.insertionSort jsLe l

/-! ### JSON documents (`CanonicalJsonValue` in `utils.ts`) -/

/-- A JSON document: a canonical JSON value (`CanonicalJsonValue` in the
source).  Object entries keep their insertion order, as JS objects do.
Numbers are modelled as integers (see the header). -/
inductive CJson where
  | cnull
  | cbool (b : Bool)
  | cnum (n : Int)
  | cstr (s : String)
  | carr (items : List CJson)
  | cobj (entries : List (String × CJson))
deriving Repr

mutual

/-- Structural equality test for JSON documents. -/
def cjBeq : CJson → CJson → Bool
  | .cnull, .cnull => true
  | .cbool a, .cbool b => a == b
  | .cnum a, .cnum b => a == b
  | .cstr a, .cstr b => a == b
  | .carr xs, .carr ys => cjBeqList xs ys
  | .cobj es, .cobj fs => cjBeqObj es fs
  | _, _ => false

def cjBeqList : List CJson → List CJson → Bool
  | [], [] => true
  | x :: xs, y :: ys => cjBeq x y && cjBeqList xs ys
  | _, _ => false

def cjBeqObj : List (String × CJson) → List (String × CJson) → Bool
  | [], [] => true
  | (k, v) :: es, (l, w) :: fs => k == l && cjBeq v w && cjBeqObj es fs
  | _, _ => false

end

mutual

theorem cjBeq_iff : ∀ (a b : CJson), cjBeq a b = true ↔ a = b
  | .cnull, b => by cases b <;> simp [cjBeq]
  | .cbool x, b => by cases b <;> simp [cjBeq]
  | .cnum x, b => by cases b <;> simp [cjBeq]
  | .cstr x, b => by cases b <;> simp [cjBeq]
  | .carr xs, b => by
    cases b <;> simp [cjBeq]
    exact cjBeqList_iff xs _
  | .cobj es, b => by
    cases b <;> simp [cjBeq]
    exact cjBeqObj_iff es _

theorem cjBeqList_iff : ∀ (xs ys : List CJson), cjBeqList xs ys = true ↔ xs = ys
  | [], ys => by cases ys <;> simp [cjBeqList]
  | x :: xs, ys => by
    cases ys with
    | nil => simp [cjBeqList]
    | cons y ys =>
      simp [cjBeqList, cjBeq_iff x y, cjBeqList_iff xs ys]

theorem cjBeqObj_iff : ∀ (es fs : List (String × CJson)), cjBeqObj es fs = true ↔ es = fs
  | [], fs => by cases fs <;> simp [cjBeqObj]
  | (k, v) :: es, fs => by
    cases fs with
    | nil => simp [cjBeqObj]
    | cons p fs =>
      obtain ⟨l, w⟩ := p
      simp [cjBeqObj, cjBeq_iff v w, cjBeqObj_iff es fs, Prod.ext_iff]

end

instance : DecidableEq CJson := fun a b =>
  decidable_of_iff (cjBeq a b = true) (cjBeq_iff a b)

/-- Hex digit (lowercase), as used in JSON `\u00XX` escapes. -/
def hexDigit (n : Nat) : String :=
  if n < 10 then toString n else String.singleton (Char.ofNat (87 + n))

/-- JSON escape of a single character, per `JSON.stringify`. -/
def escChar (c : Char) : String :=
  if c = '"' then "\\\""
  else if c = '\\' then "\\\\"
  else if c = '\n' then "\\n"
  else if c = '\r' then "\\r"
  else if c = '\t' then "\\t"
  else if c = Char.ofNat 8 then "\\b"
  else if c = Char.ofNat 12 then "\\f"
  else if c.toNat < 32 then
    "\\u00" ++ hexDigit (c.toNat / 16) ++ hexDigit (c.toNat % 16)
  else String.singleton c

/-- A JSON string literal for `s`: quote and escape. -/
def quoteJson (s : String) : String :=
  "\"" ++ String.join (s.data.map escChar) ++ "\""

mutual

/-- Model of `JSON.stringify` on a document: no whitespace, standard
escaping, object/array entries in stored order. -/
def jsonStringify : CJson → String
  | .cnull => "null"
  | .cbool b => if b then "true" else "false"
  | .cnum n => toString n
  | .cstr s => quoteJson s
  | .carr xs => "[" ++ String.intercalate "," (jsonStringifyList xs) ++ "]"
  | .cobj es => "\x7b" ++ String.intercalate "," (jsonStringifyObj es) ++ "\x7d"

def jsonStringifyList : List CJson → List String
  | [] => []
  | x :: xs => jsonStringify x :: jsonStringifyList xs

def jsonStringifyObj : List (String × CJson) → List String
  | [] => []
  | (k, v) :: es => (quoteJson k ++ ":" ++ jsonStringify v) :: jsonStringifyObj es

end

/-! ### Input values (`unknown` payloads) -/

/-- A JavaScript value as dispatched by `normalize` (`utils.ts`), one
constructor per recognized branch:

* `vnum` — a number (modelled as an integer, see the header);
* `vbigint` — a `bigint`;
* `vdate` — a `Date`, carrying the ISO-8601 string its `toJSON()` returns;
* `vbuffer` — a `Buffer`, carrying the base64 rendering `toString("base64")`
  returns;
* `vmap` — a `Map`, entries in iteration (insertion) order, keys carried
  after the `String(entryKey)` conversion the source applies.  Distinct Map
  keys can convert to the same string (for example the number `1` and the
  string `"1"`), so duplicate keys are representable, exactly as in JS;
* `vset` — a `Set`, members in iteration (insertion) order;
* `vobj` — a plain object, own enumerable entries in enumeration order;
* `vundef` — `undefined` (the unsupported-type branch; `function` and
  `symbol` values behave the same up to the error message and are not
  modelled separately). -/
inductive JsValue where
  | vnull
  | vbool (b : Bool)
  | vnum (n : Int)
  | vstr (s : String)
  | vbigint (i : Int)
  | vdate (iso : String)
  | vbuffer (b64 : String)
  | varr (items : List JsValue)
  | vmap (entries : List (String × JsValue))
  | vset (items : List JsValue)
  | vobj (entries : List (String × JsValue))
  | vundef
deriving Repr

/-- The error `normalize` throws on an unsupported value
(`IdempotencySerializationError`). -/
def unsupportedErr : IdemErr :=
  .serialization "Unsupported value type: undefined"

/-- Insertion of one entry into a JS object under construction
(`plain[entryKey] = ...`): an existing key keeps its position and gets the
new value, a new key is appended. -/
def objInsert : List (String × CJson) → String × CJson → List (String × CJson)
  | [], p => [p]
  | (k', v') :: es, p =>
    if k' = p.1 then (k', p.2) :: es else (k', v') :: objInsert es p

/-- Building a JS object by assigning entries left to right into an
initially empty object (the `for` loop of the plain-object branch). -/
def objFromEntries (l : List (String × CJson)) : List (String × CJson) :=
  l.foldl objInsert []

def bigintTag : String := "bigint:"
def bufferTag : String := "buffer:"
def mapTag : String := "map:"
def setTag : String := "set:"

mutual

/-- Model of `normalize` (`utils.ts`).  Branches in source order:
primitives pass through; `bigint` → tagged decimal string; `Date` →
`toJSON()`; `Buffer` → tagged base64; arrays map recursively; `Map` →
entries normalized, sorted by key with `localeCompare`, encoded as tagged
`"map:key:json"` strings; `Set` → members normalized, JSON-encoded, sorted
with the default (code-unit) comparator, tagged `"set:"`; plain objects →
entries with `undefined` values dropped, sorted by key with
`localeCompare`, values normalized, assembled in sorted order; anything
else throws a serialization error.

One deliberate reordering against the source, without semantic effect: the
source sorts plain-object entries *before* normalizing their values, and
Map entries *after*; here both branches normalize entry values first and
then sort.  The comparator reads keys only and the per-entry normalization
is independent of its neighbours, so the composed function is the same;
the only observable difference would be *which* error is thrown when two
different entries both fail, and the model has a single error value. -/
def normalizeE : JsValue → Except IdemErr CJson
  | .vnull => .ok .cnull
  | .vstr s => .ok (.cstr s)
  | .vnum n => .ok (.cnum n)
  | .vbool b => .ok (.cbool b)
  | .vbigint i => .ok (.cstr (bigintTag ++ toString i))
  | .vdate iso => .ok (.cstr iso)
  | .vbuffer b64 => .ok (.cstr (bufferTag ++ b64))
  | .varr xs => do
    let cs ← normalizeListE xs
    .ok (.carr cs)
  | .vmap es => do
    let ns ← normalizeEntriesE es
    .ok (.carr ((sortKeyed ns).map
      (fun p => .cstr (mapTag ++ p.1 ++ ":" ++ jsonStringify p.2))))
  | .vset xs => do
    let cs ← normalizeListE xs
    .ok (.carr ((sortStringsJs (cs.map jsonStringify)).map
      (fun s => .cstr (setTag ++ s))))
  | .vobj es => do
    let ns ← normalizeEntriesSkipE es
    .ok (.cobj (objFromEntries (sortKeyed ns)))
  | .vundef => .error unsupportedErr

def normalizeListE : List JsValue → Except IdemErr (List CJson)
  | [] => .ok []
  | x :: xs => do
    let c ← normalizeE x
    let cs ← normalizeListE xs
    .ok (c :: cs)

/-- Entry normalization for the `Map` branch (no filtering: a `Map` value
of `undefined` reaches `normalize` and throws). -/
def normalizeEntriesE : List (String × JsValue) → Except IdemErr (List (String × CJson))
  | [] => .ok []
  | (k, v) :: es => do
    let c ← normalizeE v
    let cs ← normalizeEntriesE es
    .ok ((k, c) :: cs)

/-- Entry normalization for the plain-object branch: entries whose value is
`undefined` are dropped (`filter(([, v]) => v !== undefined)`). -/
def normalizeEntriesSkipE : List (String × JsValue) → Except IdemErr (List (String × CJson))
  | [] => .ok []
  | (_, .vundef) :: es => normalizeEntriesSkipE es
  | (k, v) :: es => do
    let c ← normalizeE v
    let cs ← normalizeEntriesSkipE es
    .ok ((k, c) :: cs)

end

/-- Model of `canonicalize` (`utils.ts`): normalize, then JSON-stringify;
any error is rethrown as an `IdempotencySerializationError` carrying the
original message. -/
def canonicalizeE (v : JsValue) : Except IdemErr String :=
  match normalizeE v with
  | .ok c => .ok (jsonStringify c)
  | .error e => .error (.serialization e.msgOf)

/-! ### Records, documents, and serialization (`types.ts`, `utils.ts`) -/

/-- Supported digest algorithms (`HashAlgorithm` in `types.ts`). -/
inductive HashAlgorithm where
  | sha256
  | sha512
deriving DecidableEq, Repr

/-- An idempotency record (`IdempotencyRecord` in `types.ts`).  Optional
fields are `Option`; `ttlSeconds : Option (Option Int)` distinguishes an
absent field (`none`) from a present `null` (`some none`) from a number
(`some (some n)`), because `JSON.stringify` drops absent/`undefined` fields
but keeps `null` ones. -/
structure IdempotencyRecord where
  id : String
  payloadHash : String
  createdAt : String
  metadata : Option CJson
  canonicalPayload : Option String
  ttlSeconds : Option (Option Int)
deriving DecidableEq, Repr

/-- Field lookup on a JSON document (`parsed.name` on a parsed object).
Documents produced by `JSON.parse` have pairwise-distinct keys. -/
def lookupField (doc : CJson) (k : String) : Option CJson :=
  match doc with
  | .cobj es => (es.find? (fun p => p.1 == k)).map (fun p => p.2)
  | _ => none

/-- Entry-list update with JS property-assignment semantics (used by the
object spread `{...existingRecord, ttlSeconds: ...}`): an existing key keeps
its position, a fresh key is appended. -/
def setEntries : List (String × CJson) → String → CJson → List (String × CJson)
  | [], k, v => [(k, v)]
  | (k', v') :: es, k, v =>
    if k' = k then (k, v) :: es else (k', v') :: setEntries es k v

/-- Document update for `{...doc, k: v}`.  Only ever applied to objects
(`deserializeRecord` guarantees the document is one). -/
def setField (doc : CJson) (k : String) (v : CJson) : CJson :=
  match doc with
  | .cobj es => .cobj (setEntries es k v)
  | _ => .cobj [(k, v)]

/-- The JSON document `JSON.stringify` produces for a freshly built record
object: fields in declaration order, fields holding `undefined` dropped. -/
def recordToDoc (r : IdempotencyRecord) : CJson :=
  .cobj (
    [("id", .cstr r.id), ("payloadHash", .cstr r.payloadHash),
     ("createdAt", .cstr r.createdAt)]
    ++ (match r.metadata with
        | some m => [("metadata", m)]
        | none => [])
    ++ (match r.canonicalPayload with
        | some c => [("canonicalPayload", .cstr c)]
        | none => [])
    ++ (match r.ttlSeconds with
        | none => []
        | some none => [("ttlSeconds", .cnull)]
        | some (some n) => [("ttlSeconds", .cnum n)]))

/-- Model of `serializeRecord` at the byte level. -/
def serializeRecord (r : IdempotencyRecord) : String :=
  jsonStringify (recordToDoc r)

/-- The shape error `deserializeRecord` throws: a plain `IdempotencyError`
(the structural-shape kind). -/
def recordShapeErr : IdemErr :=
  .generic "Stored idempotency record has invalid shape"

/-- Whether a parsed value passes `typeof parsed === "object" && parsed !==
null` together with `typeof parsed.id === "string"`.  A parsed array has
`typeof === "object"` but no `id` property, so it fails the second check. -/
def docShapeOk (doc : CJson) : Bool :=
  match doc with
  | .cobj es =>
    match es.find? (fun p => p.1 == "id") with
    | some (_, .cstr _) => true
    | _ => false
  | _ => false

/-- Model of `deserializeRecord` (`utils.ts`) applied to a string that
parses to `doc`: the shape check passes and the parsed object is returned
unchanged, or the structural-shape error is thrown.  (A string that fails
`JSON.parse` throws a serialization error instead; such strings have no
document and are outside this model.) -/
def deserializeRecordDoc (doc : CJson) : Except IdemErr CJson :=
  if docShapeOk doc then .ok doc else .error recordShapeErr

/-- Typed view of a record document: extracts the declared fields of
`IdempotencyRecord`, `none` when a field is missing or ill-typed.  Used to
state losslessness of the round-trip. -/
def docToRecord (doc : CJson) : Option IdempotencyRecord :=
  match lookupField doc "id", lookupField doc "payloadHash",
      lookupField doc "createdAt" with
  | some (.cstr i), some (.cstr p), some (.cstr c) =>
    let md := lookupField doc "metadata"
    match lookupField doc "canonicalPayload", lookupField doc "ttlSeconds" with
    | some (.cstr cp), some (.cnum n) =>
      some ⟨i, p, c, md, some cp, some (some n)⟩
    | some (.cstr cp), some .cnull => some ⟨i, p, c, md, some cp, some none⟩
    | some (.cstr cp), none => some ⟨i, p, c, md, some cp, none⟩
    | none, some (.cnum n) => some ⟨i, p, c, md, none, some (some n)⟩
    | none, some .cnull => some ⟨i, p, c, md, none, some none⟩
    | none, none => some ⟨i, p, c, md, none, none⟩
    | _, _ => none
  | _, _, _ => none

/-! ### The manager (`idempotency-manager.ts`) -/

/-- Constructor options (`IdempotencyManagerOptions`).  `defaultTtlSeconds`
is `undefined | null | number`, with the number as `Rat` so the
`Number.isInteger` check is expressible. -/
structure ManagerOptions where
  keyPref : Option String
  defaultTtlSeconds : Option (Option Rat)
  hashAlgorithm : Option HashAlgorithm
  storeCanonicalPayload : Option Bool

/-- Validated manager state after the constructor ran. -/
structure ManagerConfig where
  keyPref : String
  defaultTtlSeconds : Option Int
  hashAlgorithm : HashAlgorithm
  storeCanonicalPayload : Bool
deriving Repr

/-- Model of the constructor line trimming trailing colons from the key
prefix option (a replace of the trailing-colons pattern with nothing). -/
def trimTrailingColons (s : String) : String :=
  String.mk ((s.data.reverse.dropWhile (fun c => c = ':')).reverse)

/-- Model of the `IdempotencyManager` constructor: missing store and
non-positive-integer default TTL fail fast; the key prefix is trimmed and
defaults to `"idempotency"`; the hash algorithm defaults to sha256. -/
def mkManager (storePresent : Bool) (o : ManagerOptions) :
    Except IdemErr ManagerConfig :=
  if !storePresent then
    .error (.generic "A storage adapter instance is required")
  else
    match o.defaultTtlSeconds with
    | none => .ok ⟨(o.keyPref.map trimTrailingColons).getD "idempotency",
        none, o.hashAlgorithm.getD .sha256, o.storeCanonicalPayload.getD false⟩
    | some none => .ok ⟨(o.keyPref.map trimTrailingColons).getD "idempotency",
        none, o.hashAlgorithm.getD .sha256, o.storeCanonicalPayload.getD false⟩
    | some (some q) =>
      if q.den ≠ 1 ∨ q.num ≤ 0 then
        .error (.generic "defaultTtlSeconds must be a positive integer when provided")
      else
        .ok ⟨(o.keyPref.map trimTrailingColons).getD "idempotency",
          some q.num, o.hashAlgorithm.getD .sha256,
          o.storeCanonicalPayload.getD false⟩

/-- Model of `buildKey`: deterministic concatenation of prefix, colon, id
(`buildRedisKey` is an alias). -/
def buildKey (cfg : ManagerConfig) (id : String) : String :=
  cfg.keyPref ++ ":" ++ id

/-- Model of `resolveTtl`: `undefined` falls back to the manager default;
`null` and `0` mean no expiration; a positive integer passes through; a
negative or non-integer number throws before any I/O. -/
def resolveTtl (cfg : ManagerConfig) : Option (Option Rat) → Except IdemErr (Option Int)
  | none => .ok cfg.defaultTtlSeconds
  | some none => .ok none
  | some (some q) =>
    if q.den ≠ 1 ∨ q.num < 0 then
      .error (.generic "TTL must be a positive integer, null, or undefined")
    else if q.num = 0 then .ok none
    else .ok (some q.num)

/-- Model of `isFiniteTtl` (`idempotency-manager.ts`): a finite number strictly
greater than zero. -/
def isFiniteTtl : Option Int → Bool
  | some n => 0 < n
  | none => false

/-- Model of `generateId`: canonicalize then hash.  Pure, no I/O. -/
def generateIdE (cfg : ManagerConfig) (hashFn : HashAlgorithm → String → String)
    (payload : JsValue) : Except IdemErr String :=
  (canonicalizeE payload).map (hashFn cfg.hashAlgorithm)

/-- The standalone `steadyKey` helper: canonicalize, then hash with the
per-call algorithm, defaulting to sha256. -/
def steadyKeyE (hashFn : HashAlgorithm → String → String) (payload : JsValue)
    (alg : Option HashAlgorithm) : Except IdemErr String :=
  (canonicalizeE payload).map (hashFn (alg.getD .sha256))

/-- Per-call registration options (`IdempotencyRegisterOptions`). -/
structure RegisterOptions where
  ttlSeconds : Option (Option Rat)
  metadata : Option CJson
  storeCanonicalPayload : Option Bool

/-- A store read result (`IdempotencyStoreValue`): the stored value (as its
parsed document) and the best-effort remaining TTL; `none` covers both
`null` and an absent field, which every use (`??`) treats alike. -/
structure StoreValue where
  value : CJson
  ttlSeconds : Option Int

/-- One call made to the store, with its arguments; store values at the
document level. -/
inductive StoreCall where
  | setIfAbsent (key : String) (value : CJson) (ttl : Option Int)
  | get (key : String)
  | update (key : String) (value : CJson) (ttl : Option Int)
  | delete (key : String)
deriving DecidableEq, Repr

/-- Whether a store call can change store state. -/
def StoreCall.isMutation : StoreCall → Bool
  | .get _ => false
  | _ => true

/-- Result of `register` (`IdempotencyRegistrationResult`); `record` is the
record object the call returns, as a JSON document. -/
structure RegResult where
  id : String
  key : String
  stored : Bool
  record : CJson
deriving Repr

/-- Model of `register`.  The store is external and possibly concurrent, so
the two store responses the code can consume are parameters: `insertResp`
is what `setIfAbsent` reported, `getResp` what the follow-up `get` returned
(consumed only when the insert reported "already present").  The returned
list is the sequence of store calls performed. -/
def registerRun (cfg : ManagerConfig) (hashFn : HashAlgorithm → String → String)
    (payload : JsValue) (opts : RegisterOptions) (now : String)
    (insertResp : Bool) (getResp : Option StoreValue) :
    Except IdemErr RegResult × List StoreCall :=
  match canonicalizeE payload with
  | .error e => (.error e, [])
  | .ok canonicalPayload =>
    let id := hashFn cfg.hashAlgorithm canonicalPayload
    let key := buildKey cfg id
    match resolveTtl cfg opts.ttlSeconds with
    | .error e => (.error e, [])
    | .ok ttlSeconds =>
      let keep := opts.storeCanonicalPayload.getD cfg.storeCanonicalPayload
      let record : IdempotencyRecord :=
        ⟨id, id, now, opts.metadata,
          if keep then some canonicalPayload else none, some ttlSeconds⟩
      let serialized := recordToDoc record
      if insertResp then
        (.ok ⟨id, key, true, serialized⟩, [.setIfAbsent key serialized ttlSeconds])
      else
        match getResp with
        | none =>
          (.error (.generic "Failed to persist idempotency record due to concurrent deletion"),
            [.setIfAbsent key serialized ttlSeconds, .get key])
        | some sv =>
          match deserializeRecordDoc sv.value with
          | .error e => (.error e, [.setIfAbsent key serialized ttlSeconds, .get key])
          | .ok existingDoc =>
            if lookupField existingDoc "payloadHash" ≠ some (.cstr record.payloadHash) then
              (.error (.collision ("Collision detected for key " ++ key)),
                [.setIfAbsent key serialized ttlSeconds, .get key])
            else
              (.ok ⟨id, key, false, existingDoc⟩,
                [.setIfAbsent key serialized ttlSeconds, .get key])

/-- Result of a lookup (`IdempotencyLookupResult`); `ttlSeconds = none`
models the `null` result of the `?? null` chain. -/
structure LookupResult where
  id : String
  key : String
  record : CJson
  ttlSeconds : Option CJson
deriving Repr

/-- Model of `lookupById`: read-only; `null` when the store reports the key
absent; otherwise the deserialized record with `stored.ttlSeconds ??
record.ttlSeconds ?? null`. -/
def lookupByIdRun (cfg : ManagerConfig) (id : String) (getResp : Option StoreValue) :
    Except IdemErr (Option LookupResult) × List StoreCall :=
  let key := buildKey cfg id
  match getResp with
  | none => (.ok none, [.get key])
  | some sv =>
    match deserializeRecordDoc sv.value with
    | .error e => (.error e, [.get key])
    | .ok doc =>
      let ttl : Option CJson :=
        match sv.ttlSeconds with
        | some n => some (.cnum n)
        | none =>
          match lookupField doc "ttlSeconds" with
          | none => none
          | some .cnull => none
          | some j => some j
      (.ok (some ⟨id, key, doc, ttl⟩), [.get key])

/-- Model of `lookupByPayload`: canonicalize and hash, then `lookupById`. -/
def lookupByPayloadRun (cfg : ManagerConfig)
    (hashFn : HashAlgorithm → String → String) (payload : JsValue)
    (getResp : Option StoreValue) :
    Except IdemErr (Option LookupResult) × List StoreCall :=
  match canonicalizeE payload with
  | .error e => (.error e, [])
  | .ok canonicalPayload =>
    lookupByIdRun cfg (hashFn cfg.hashAlgorithm canonicalPayload) getResp

/-- Model of `updateTtl`: resolve the TTL (throws before I/O when invalid),
read the record (missing key throws after the read, with no write), rewrite
it with only `ttlSeconds` changed, and call `Store.update`. -/
def updateTtlRun (cfg : ManagerConfig) (id : String) (t : Option (Option Rat))
    (getResp : Option StoreValue) : Except IdemErr Unit × List StoreCall :=
  let key := buildKey cfg id
  match resolveTtl cfg t with
  | .error e => (.error e, [])
  | .ok newTtl =>
    match getResp with
    | none =>
      (.error (.generic ("Cannot update TTL for missing key " ++ key)), [.get key])
    | some sv =>
      match deserializeRecordDoc sv.value with
      | .error e => (.error e, [.get key])
      | .ok doc =>
        let ttlField : CJson :=
          if isFiniteTtl newTtl then
            match newTtl with
            | some n => .cnum n
            | none => .cnull
          else .cnull
        (.ok (), [.get key, .update key (setField doc "ttlSeconds" ttlField) newTtl])

/-! ### Structural equivalence up to entry permutation (claim C2) -/

mutual

/-- Two payloads are the same up to permuting `Map` entries, `Set` members,
and plain-object entries, at any nesting depth.  Arrays keep their order. -/
inductive JsEquiv : JsValue → JsValue → Prop where
  | vnull : JsEquiv .vnull .vnull
  | vbool (b : Bool) : JsEquiv (.vbool b) (.vbool b)
  | vnum (n : Int) : JsEquiv (.vnum n) (.vnum n)
  | vstr (s : String) : JsEquiv (.vstr s) (.vstr s)
  | vbigint (i : Int) : JsEquiv (.vbigint i) (.vbigint i)
  | vdate (iso : String) : JsEquiv (.vdate iso) (.vdate iso)
  | vbuffer (b : String) : JsEquiv (.vbuffer b) (.vbuffer b)
  | vundef : JsEquiv .vundef .vundef
  | varr {xs ys : List JsValue} :
      JsEquivList xs ys → JsEquiv (.varr xs) (.varr ys)
  | vmap {es gs fs : List (String × JsValue)} :
      JsEquivEntries es gs → gs.Perm fs → JsEquiv (.vmap es) (.vmap fs)
  | vset {xs zs ys : List JsValue} :
      JsEquivList xs zs → zs.Perm ys → JsEquiv (.vset xs) (.vset ys)
  | vobj {es gs fs : List (String × JsValue)} :
      JsEquivEntries es gs → gs.Perm fs → JsEquiv (.vobj es) (.vobj fs)

/-- Pointwise equivalence of value lists. -/
inductive JsEquivList : List JsValue → List JsValue → Prop where
  | nil : JsEquivList [] []
  | cons {x y : JsValue} {xs ys : List JsValue} :
      JsEquiv x y → JsEquivList xs ys → JsEquivList (x :: xs) (y :: ys)

/-- Pointwise equivalence of entry lists: equal keys, equivalent values. -/
inductive JsEquivEntries :
    List (String × JsValue) → List (String × JsValue) → Prop where
  | nil : JsEquivEntries [] []
  | cons {k : String} {v w : JsValue} {es fs : List (String × JsValue)} :
      JsEquiv v w → JsEquivEntries es fs →
      JsEquivEntries ((k, v) :: es) ((k, w) :: fs)

end

mutual

/-- Key discipline required for permutation invariance: every `Map` and
plain-object node has pairwise-distinct (stringified) keys.  Plain objects
always satisfy this; a `Map` can violate it when distinct keys stringify
equal (see `JsValue.vmap`). -/
def wellKeyed : JsValue → Bool
  | .varr xs => wellKeyedList xs
  | .vset xs => wellKeyedList xs
  | .vmap es => ((es.map Prod.fst).Nodup : Bool) && wellKeyedEntries es
  | .vobj es => ((es.map Prod.fst).Nodup : Bool) && wellKeyedEntries es
  | _ => true

def wellKeyedList : List JsValue → Bool
  | [] => true
  | x :: xs => wellKeyed x && wellKeyedList xs

def wellKeyedEntries : List (String × JsValue) → Bool
  | [] => true
  | (_, v) :: es => wellKeyed v && wellKeyedEntries es

end

/-! ### Canonical values as inputs (claim C9) -/

mutual

/-- Embedding of a canonical JSON document back into the payload domain:
the output of `canonicalize` parsed as a JS value. -/
def cjToJs : CJson → JsValue
  | .cnull => .vnull
  | .cbool b => .vbool b
  | .cnum n => .vnum n
  | .cstr s => .vstr s
  | .carr xs => .varr (cjToJsList xs)
  | .cobj es => .vobj (cjToJsEntries es)

def cjToJsList : List CJson → List JsValue
  | [] => []
  | x :: xs => cjToJs x :: cjToJsList xs

def cjToJsEntries : List (String × CJson) → List (String × JsValue)
  | [] => []
  | (k, v) :: es => (k, cjToJs v) :: cjToJsEntries es

end

/-- Strict sortedness of object keys under the localeCompare order,
checked on adjacent entries. -/
def keysSortedStrict : List (String × CJson) → Bool
  | [] => true
  | [_] => true
  | p :: q :: es =>
    decide (localeLt p.1 q.1) && keysSortedStrict (q :: es)

mutual

/-- Canonical forms: documents that `normalize` can output.  Object entries
are strictly key-sorted (the insertion order of the plain-object branch)
and all nested values are canonical. -/
def canonDoc : CJson → Bool
  | .cnull => true
  | .cbool _ => true
  | .cnum _ => true
  | .cstr _ => true
  | .carr xs => canonDocList xs
  | .cobj es => keysSortedStrict es && canonDocEntries es

def canonDocList : List CJson → Bool
  | [] => true
  | x :: xs => canonDoc x && canonDocList xs

def canonDocEntries : List (String × CJson) → Bool
  | [] => true
  | (_, v) :: es => canonDoc v && canonDocEntries es

end

/-! ### Unfolding equations for the normalize family -/

theorem exceptBind_ok {α β ε : Type} (a : α) (f : α → Except ε β) :
    (Except.ok a >>= f) = f a := rfl

theorem exceptBind_error {α β ε : Type} (e : ε) (f : α → Except ε β) :
    ((Except.error e : Except ε α) >>= f : Except ε β) = .error e := rfl

theorem normalizeE_varr (xs : List JsValue) :
    normalizeE (.varr xs) =
      normalizeListE xs >>= fun cs => .ok (.carr cs) := rfl

theorem normalizeE_vmap (es : List (String × JsValue)) :
    normalizeE (.vmap es) =
      normalizeEntriesE es >>= fun ns =>
        .ok (.carr ((sortKeyed ns).map
          (fun p => .cstr (mapTag ++ p.1 ++ ":" ++ jsonStringify p.2)))) := rfl

theorem normalizeE_vset (xs : List JsValue) :
    normalizeE (.vset xs) =
      normalizeListE xs >>= fun cs =>
        .ok (.carr ((sortStringsJs (cs.map jsonStringify)).map
          (fun s => .cstr (setTag ++ s)))) := rfl

theorem normalizeE_vobj (es : List (String × JsValue)) :
    normalizeE (.vobj es) =
      normalizeEntriesSkipE es >>= fun ns =>
        .ok (.cobj (objFromEntries (sortKeyed ns))) := rfl

theorem normalizeListE_nil : normalizeListE [] = .ok [] := rfl

theorem normalizeListE_cons (x : JsValue) (xs : List JsValue) :
    normalizeListE (x :: xs) =
      normalizeE x >>= fun c =>
        normalizeListE xs >>= fun cs => .ok (c :: cs) := rfl

theorem normalizeEntriesE_nil : normalizeEntriesE [] = .ok [] := rfl

theorem normalizeEntriesE_cons (k : String) (v : JsValue)
    (es : List (String × JsValue)) :
    normalizeEntriesE ((k, v) :: es) =
      normalizeE v >>= fun c =>
        normalizeEntriesE es >>= fun cs => .ok ((k, c) :: cs) := rfl

theorem normalizeEntriesSkipE_nil : normalizeEntriesSkipE [] = .ok [] := rfl

theorem normalizeEntriesSkipE_cons_undef (k : String)
    (es : List (String × JsValue)) :
    normalizeEntriesSkipE ((k, .vundef) :: es) = normalizeEntriesSkipE es := rfl

theorem normalizeEntriesSkipE_cons (k : String) (v : JsValue)
    (es : List (String × JsValue)) (hv : v ≠ .vundef) :
    normalizeEntriesSkipE ((k, v) :: es) =
      normalizeE v >>= fun c =>
        normalizeEntriesSkipE es >>= fun cs => .ok ((k, c) :: cs) := by
  cases v
  case vundef => exact absurd rfl hv
  all_goals rfl

/-! ### Facts about normalize: errors and successful runs -/

mutual

/-- The only error `normalize` can produce is the unsupported-value
error. -/
theorem normErrV : ∀ (v : JsValue) {e : IdemErr},
    normalizeE v = .error e → e = unsupportedErr
  | .vnull, _, he => by simp [normalizeE] at he
  | .vbool b, _, he => by simp [normalizeE] at he
  | .vnum n, _, he => by simp [normalizeE] at he
  | .vstr s, _, he => by simp [normalizeE] at he
  | .vbigint i, _, he => by simp [normalizeE] at he
  | .vdate iso, _, he => by simp [normalizeE] at he
  | .vbuffer b, _, he => by simp [normalizeE] at he
  | .vundef, _, he => by
    simp [normalizeE] at he
    exact he.symm
  | .varr xs, _, he => by
    rw [normalizeE_varr] at he
    cases h : normalizeListE xs with
    | error e2 =>
      rw [h, exceptBind_error] at he
      cases he
      exact normErrL xs h
    | ok cs => rw [h, exceptBind_ok] at he; cases he
  | .vmap es, _, he => by
    rw [normalizeE_vmap] at he
    cases h : normalizeEntriesE es with
    | error e2 =>
      rw [h, exceptBind_error] at he
      cases he
      exact normErrEnt es h
    | ok ns => rw [h, exceptBind_ok] at he; cases he
  | .vset xs, _, he => by
    rw [normalizeE_vset] at he
    cases h : normalizeListE xs with
    | error e2 =>
      rw [h, exceptBind_error] at he
      cases he
      exact normErrL xs h
    | ok cs => rw [h, exceptBind_ok] at he; cases he
  | .vobj es, _, he => by
    rw [normalizeE_vobj] at he
    cases h : normalizeEntriesSkipE es with
    | error e2 =>
      rw [h, exceptBind_error] at he
      cases he
      exact normErrSkip es h
    | ok ns => rw [h, exceptBind_ok] at he; cases he
termination_by v => sizeOf v

theorem normErrL : ∀ (xs : List JsValue) {e : IdemErr},
    normalizeListE xs = .error e → e = unsupportedErr
  | [], _, he => by simp [normalizeListE_nil] at he
  | x :: xs, _, he => by
    rw [normalizeListE_cons] at he
    cases h : normalizeE x with
    | error e2 =>
      rw [h, exceptBind_error] at he
      cases he
      exact normErrV x h
    | ok c =>
      rw [h, exceptBind_ok] at he
      cases h2 : normalizeListE xs with
      | error e3 =>
        rw [h2, exceptBind_error] at he
        cases he
        exact normErrL xs h2
      | ok cs => rw [h2, exceptBind_ok] at he; cases he
termination_by xs => sizeOf xs

theorem normErrEnt : ∀ (es : List (String × JsValue)) {e : IdemErr},
    normalizeEntriesE es = .error e → e = unsupportedErr
  | [], _, he => by simp [normalizeEntriesE_nil] at he
  | (k, v) :: es, _, he => by
    rw [normalizeEntriesE_cons] at he
    cases h : normalizeE v with
    | error e2 =>
      rw [h, exceptBind_error] at he
      cases he
      exact normErrV v h
    | ok c =>
      rw [h, exceptBind_ok] at he
      cases h2 : normalizeEntriesE es with
      | error e3 =>
        rw [h2, exceptBind_error] at he
        cases he
        exact normErrEnt es h2
      | ok ns => rw [h2, exceptBind_ok] at he; cases he
termination_by es => sizeOf es

theorem normErrSkip : ∀ (es : List (String × JsValue)) {e : IdemErr},
    normalizeEntriesSkipE es = .error e → e = unsupportedErr
  | [], _, he => by simp [normalizeEntriesSkipE_nil] at he
  | (k, .vundef) :: es, _, he => by
    rw [normalizeEntriesSkipE_cons_undef] at he
    exact normErrSkip es he
  | (k, .vnull) :: es, _, he => normErrSkip.go k .vnull es (by simp) he
  | (k, .vbool b) :: es, _, he => normErrSkip.go k (.vbool b) es (by simp) he
  | (k, .vnum n) :: es, _, he => normErrSkip.go k (.vnum n) es (by simp) he
  | (k, .vstr s) :: es, _, he => normErrSkip.go k (.vstr s) es (by simp) he
  | (k, .vbigint i) :: es, _, he => normErrSkip.go k (.vbigint i) es (by simp) he
  | (k, .vdate iso) :: es, _, he => normErrSkip.go k (.vdate iso) es (by simp) he
  | (k, .vbuffer b) :: es, _, he => normErrSkip.go k (.vbuffer b) es (by simp) he
  | (k, .varr xs) :: es, _, he => normErrSkip.go k (.varr xs) es (by simp) he
  | (k, .vmap ms) :: es, _, he => normErrSkip.go k (.vmap ms) es (by simp) he
  | (k, .vset ss) :: es, _, he => normErrSkip.go k (.vset ss) es (by simp) he
  | (k, .vobj os) :: es, _, he => normErrSkip.go k (.vobj os) es (by simp) he
termination_by es => sizeOf es

/-- Shared non-undefined cons case of `normErrSkip`. -/
theorem normErrSkip.go (k : String) (v : JsValue) (es : List (String × JsValue))
    (hv : v ≠ .vundef) {e : IdemErr}
    (he : normalizeEntriesSkipE ((k, v) :: es) = .error e) : e = unsupportedErr := by
  rw [normalizeEntriesSkipE_cons k v es hv] at he
  cases h : normalizeE v with
  | error e2 =>
    rw [h, exceptBind_error] at he
    cases he
    exact normErrV v h
  | ok c =>
    rw [h, exceptBind_ok] at he
    cases h2 : normalizeEntriesSkipE es with
    | error e3 =>
      rw [h2, exceptBind_error] at he
      cases he
      exact normErrSkip es h2
    | ok ns => rw [h2, exceptBind_ok] at he; cases he
termination_by sizeOf v + sizeOf es + 1

end

/-! ### Successful runs as pointwise relations -/

/-- Entry-wise success relation: equal key, value normalizes to the given
document. -/
def REnt (p : String × JsValue) (q : String × CJson) : Prop :=
  p.1 = q.1 ∧ normalizeE p.2 = .ok q.2

/-- Value-wise success relation. -/
def RVal (v : JsValue) (c : CJson) : Prop := normalizeE v = .ok c

/-- The filter of the plain-object branch (`v !== undefined`). -/
def keepEntry (p : String × JsValue) : Bool :=
  match p.2 with
  | .vundef => false
  | _ => true

theorem rval_right_unique : Relator.RightUnique RVal := by
  intro v c c' h1 h2
  unfold RVal at h1 h2
  rw [h1] at h2
  cases h2
  rfl

theorem rent_right_unique : Relator.RightUnique REnt := by
  intro p q q' h1 h2
  obtain ⟨k1, c1⟩ := q
  obtain ⟨k2, c2⟩ := q'
  obtain ⟨hk1, hv1⟩ := h1
  obtain ⟨hk2, hv2⟩ := h2
  simp only at hk1 hv1 hk2 hv2
  rw [hv1] at hv2
  cases hv2
  simp_all

theorem listE_ok_iff : ∀ {l : List JsValue} {ns : List CJson},
    normalizeListE l = .ok ns ↔ List.Forall₂ RVal l ns := by
  intro l
  induction l with
  | nil =>
    intro ns
    rw [normalizeListE_nil]
    constructor
    · intro h; cases h; exact .nil
    · intro h; cases h; rfl
  | cons x xs ih =>
    intro ns
    rw [normalizeListE_cons]
    constructor
    · intro h
      cases hx : normalizeE x with
      | error e => rw [hx, exceptBind_error] at h; cases h
      | ok c =>
        rw [hx, exceptBind_ok] at h
        cases hxs : normalizeListE xs with
        | error e => rw [hxs, exceptBind_error] at h; cases h
        | ok cs =>
          rw [hxs, exceptBind_ok] at h
          cases h
          exact .cons hx (ih.mp hxs)
    · intro h
      cases h with
      | cons hx hxs =>
        rw [hx, exceptBind_ok, ih.mpr hxs, exceptBind_ok]

theorem entriesE_ok_iff : ∀ {l : List (String × JsValue)} {ns : List (String × CJson)},
    normalizeEntriesE l = .ok ns ↔ List.Forall₂ REnt l ns := by
  intro l
  induction l with
  | nil =>
    intro ns
    rw [normalizeEntriesE_nil]
    constructor
    · intro h; cases h; exact .nil
    · intro h; cases h; rfl
  | cons p l ih =>
    obtain ⟨k, v⟩ := p
    intro ns
    rw [normalizeEntriesE_cons]
    constructor
    · intro h
      cases hv : normalizeE v with
      | error e => rw [hv, exceptBind_error] at h; cases h
      | ok c =>
        rw [hv, exceptBind_ok] at h
        cases hl : normalizeEntriesE l with
        | error e => rw [hl, exceptBind_error] at h; cases h
        | ok cs =>
          rw [hl, exceptBind_ok] at h
          cases h
          exact .cons ⟨rfl, hv⟩ (ih.mp hl)
    · intro h
      cases h with
      | cons hp hl =>
        rename_i q ns' 
        obtain ⟨l', c⟩ := q
        obtain ⟨hk, hv⟩ := hp
        cases hk
        rw [hv, exceptBind_ok, ih.mpr hl, exceptBind_ok]

theorem skipE_ok_iff : ∀ {l : List (String × JsValue)} {ns : List (String × CJson)},
    normalizeEntriesSkipE l = .ok ns ↔ List.Forall₂ REnt (l.filter keepEntry) ns := by
  intro l
  induction l with
  | nil =>
    intro ns
    rw [normalizeEntriesSkipE_nil]
    constructor
    · intro h; cases h; exact .nil
    · intro h
      simp [List.filter] at h
      cases h; rfl
  | cons p l ih =>
    obtain ⟨k, v⟩ := p
    intro ns
    by_cases hk : v = .vundef
    · subst hk
      rw [normalizeEntriesSkipE_cons_undef]
      have : ((k, JsValue.vundef) :: l).filter keepEntry = l.filter keepEntry := by
        simp [List.filter, keepEntry]
      rw [this]
      exact ih
    · rw [normalizeEntriesSkipE_cons k v l hk]
      have hkeep : keepEntry (k, v) = true := by
        cases v <;> simp [keepEntry] at hk ⊢
      have : ((k, v) :: l).filter keepEntry = (k, v) :: l.filter keepEntry := by
        simp [List.filter, hkeep]
      rw [this]
      constructor
      · intro h
        cases hv : normalizeE v with
        | error e => rw [hv, exceptBind_error] at h; cases h
        | ok c =>
          rw [hv, exceptBind_ok] at h
          cases hl : normalizeEntriesSkipE l with
          | error e => rw [hl, exceptBind_error] at h; cases h
          | ok cs =>
            rw [hl, exceptBind_ok] at h
            cases h
            exact .cons ⟨rfl, hv⟩ (ih.mp hl)
      · intro h
        cases h with
        | cons hp hl =>
          rename_i q ns'
          obtain ⟨l', c⟩ := q
          obtain ⟨hk', hv⟩ := hp
          cases hk'
          rw [hv, exceptBind_ok, ih.mpr hl, exceptBind_ok]

theorem forall2_mem_left {α β : Type} {R : α → β → Prop} :
    ∀ {l : List α} {m : List β}, List.Forall₂ R l m → ∀ {v}, v ∈ l → ∃ c, R v c := by
  intro l m h
  induction h with
  | nil => intro v hv; cases hv
  | cons hp _ ih =>
    intro v hv
    rcases List.mem_cons.mp hv with hv | hv
    · subst hv; exact ⟨_, hp⟩
    · exact ih hv

theorem forall2_exists {α β : Type} {R : α → β → Prop} :
    ∀ {l : List α}, (∀ v ∈ l, ∃ c, R v c) → ∃ m, List.Forall₂ R l m := by
  intro l
  induction l with
  | nil => intro _; exact ⟨[], .nil⟩
  | cons x xs ih =>
    intro h
    obtain ⟨c, hc⟩ := h x (List.mem_cons_self x xs)
    obtain ⟨m, hm⟩ := ih (fun v hv => h v (List.mem_cons_of_mem x hv))
    exact ⟨c :: m, .cons hc hm⟩

theorem entries_keys : ∀ {l : List (String × JsValue)} {ns : List (String × CJson)},
    List.Forall₂ REnt l ns → l.map Prod.fst = ns.map Prod.fst := by
  intro l ns h
  induction h with
  | nil => rfl
  | cons hp _ ih =>
    simp only [List.map]
    rw [hp.1, ih]

/-! ### Sort lemmas -/

theorem sortKeyed_perm {α : Type} (l : List (String × α)) : (sortKeyed l).Perm l :=
  List.perm_insertionSort keyLe l

theorem sortKeyed_sorted {α : Type} (l : List (String × α)) :
    List.Sorted keyLe (sortKeyed l) :=
  List.sorted_insertionSort keyLe l

theorem sortStringsJs_perm (l : List String) : (sortStringsJs l).Perm l :=
  List.perm_insertionSort jsLe l

theorem sortStringsJs_sorted (l : List String) :
    List.Sorted jsLe (sortStringsJs l) :=
  List.sorted_insertionSort jsLe l

/-- With pairwise-distinct keys, the key sort is strictly sorted. -/
theorem sortKeyed_sorted_strict {α : Type} {l : List (String × α)}
    (hnd : (l.map Prod.fst).Nodup) : List.Sorted keyLt (sortKeyed l) := by
  have hperm : ((sortKeyed l).map Prod.fst).Perm (l.map Prod.fst) :=
    (sortKeyed_perm l).map Prod.fst
  have hnd' : ((sortKeyed l).map Prod.fst).Nodup := hperm.nodup_iff.mpr hnd
  have hne : (sortKeyed l).Pairwise (fun p q : String × α => p.1 ≠ q.1) :=
    List.pairwise_map.mp hnd'
  have hle : (sortKeyed l).Pairwise keyLe := sortKeyed_sorted l
  exact (hle.and hne).imp (fun h => by
    have := localeLt_iff_le_ne.mpr ⟨h.1, fun hk => h.2 (by
      rcases h with ⟨h1, h2⟩
      exact absurd hk h2)⟩
    exact this)

/-- Stable key sorts of two permuted lists with distinct keys coincide. -/
theorem sortKeyed_eq_of_perm {α : Type} {l l' : List (String × α)}
    (hp : l.Perm l') (hnd : (l.map Prod.fst).Nodup) :
    sortKeyed l = sortKeyed l' := by
  have hnd' : (l'.map Prod.fst).Nodup := (hp.map Prod.fst).nodup_iff.mp hnd
  exact List.eq_of_perm_of_sorted
    ((sortKeyed_perm l).trans (hp.trans (sortKeyed_perm l').symm))
    (sortKeyed_sorted_strict hnd) (sortKeyed_sorted_strict hnd')

/-- The default string sort of two permuted lists coincides (duplicates
included; the order is antisymmetric). -/
theorem sortStringsJs_eq_of_perm {l l' : List String} (hp : l.Perm l') :
    sortStringsJs l = sortStringsJs l' :=
  List.eq_of_perm_of_sorted
    ((sortStringsJs_perm l).trans (hp.trans (sortStringsJs_perm l').symm))
    (sortStringsJs_sorted l) (sortStringsJs_sorted l')

/-! ### Object-assembly lemmas -/

theorem objInsert_of_not_mem : ∀ {es : List (String × CJson)} {p : String × CJson},
    p.1 ∉ es.map Prod.fst → objInsert es p = es ++ [p] := by
  intro es
  induction es with
  | nil => intro p _; rfl
  | cons q es ih =>
    intro p hp
    simp only [List.map, List.mem_cons] at hp
    push_neg at hp
    obtain ⟨q1, q2⟩ := q
    rw [objInsert, if_neg (fun h => hp.1 h.symm), ih hp.2]
    rfl

/-- Assigning entries with pairwise-distinct keys into a fresh object keeps
them unchanged. -/
theorem objFromEntries_of_nodup {l : List (String × CJson)}
    (hnd : (l.map Prod.fst).Nodup) : objFromEntries l = l := by
  suffices h : ∀ (l : List (String × CJson)) (acc : List (String × CJson)),
      (l.map Prod.fst).Nodup →
      (∀ k, k ∈ l.map Prod.fst → k ∉ acc.map Prod.fst) →
      List.foldl objInsert acc l = acc ++ l by
    simpa using h l [] hnd (by intro k _ hk; cases hk)
  intro l
  induction l with
  | nil => intro acc _ _; simp
  | cons p l ih =>
    intro acc hnd hdisj
    simp only [List.foldl]
    have hp : p.1 ∉ acc.map Prod.fst :=
      hdisj p.1 (by simp)
    rw [objInsert_of_not_mem hp]
    simp only [List.map, List.nodup_cons] at hnd
    rw [ih (acc ++ [p]) hnd.2 ?_]
    · simp
    · intro k hk
      simp only [List.map_append, List.mem_append] at *
      intro hmem
      rcases hmem with hmem | hmem
      · exact hdisj k (by simp [hk]) hmem
      · simp only [List.map, List.mem_singleton] at hmem
        subst hmem
        exact hnd.1 hk

/-! ### Helper lemmas for the equivalence relation -/

theorem wellKeyed_varr (xs : List JsValue) :
    wellKeyed (.varr xs) = wellKeyedList xs := rfl

theorem wellKeyed_vset (xs : List JsValue) :
    wellKeyed (.vset xs) = wellKeyedList xs := rfl

theorem wellKeyed_vmap (es : List (String × JsValue)) :
    wellKeyed (.vmap es) =
      (((es.map Prod.fst).Nodup : Bool) && wellKeyedEntries es) := rfl

theorem wellKeyed_vobj (es : List (String × JsValue)) :
    wellKeyed (.vobj es) =
      (((es.map Prod.fst).Nodup : Bool) && wellKeyedEntries es) := rfl

theorem wellKeyedList_cons (x : JsValue) (xs : List JsValue) :
    wellKeyedList (x :: xs) = (wellKeyed x && wellKeyedList xs) := rfl

theorem wellKeyedEntries_cons (k : String) (v : JsValue)
    (es : List (String × JsValue)) :
    wellKeyedEntries ((k, v) :: es) = (wellKeyed v && wellKeyedEntries es) := rfl

theorem wellKeyedList_iff : ∀ {xs : List JsValue},
    wellKeyedList xs = true ↔ ∀ v ∈ xs, wellKeyed v = true := by
  intro xs
  induction xs with
  | nil => simp [wellKeyedList]
  | cons x xs ih =>
    rw [wellKeyedList_cons]
    simp [ih]

theorem wellKeyedEntries_iff : ∀ {es : List (String × JsValue)},
    wellKeyedEntries es = true ↔ ∀ p ∈ es, wellKeyed p.2 = true := by
  intro es
  induction es with
  | nil => simp [wellKeyedEntries]
  | cons p es ih =>
    obtain ⟨k, v⟩ := p
    rw [wellKeyedEntries_cons]
    simp [ih]

theorem equiv_undef_iff {v w : JsValue} (h : JsEquiv v w) :
    v = .vundef ↔ w = .vundef := by
  cases h <;> simp

theorem equivEntries_keys : ∀ {es fs : List (String × JsValue)},
    JsEquivEntries es fs → es.map Prod.fst = fs.map Prod.fst := by
  intro es
  induction es with
  | nil => intro fs h; cases h; rfl
  | cons p es ih =>
    intro fs h
    obtain ⟨k, v⟩ := p
    cases h with
    | cons hv hes =>
      simp only [List.map]
      rw [ih hes]

theorem equivList_length : ∀ {xs ys : List JsValue},
    JsEquivList xs ys → xs.length = ys.length := by
  intro xs
  induction xs with
  | nil => intro ys h; cases h; rfl
  | cons x xs ih =>
    intro ys h
    cases h with
    | cons hx hxs => simp [ih hxs]

/-! ### Normalization is invariant under entry permutation -/

mutual

/-- Equivalent payloads (equal up to permutation of map/set/object entries,
with distinct keys at each map/object node) normalize identically; errors
included. -/
theorem normEqV : ∀ (v w : JsValue), wellKeyed v = true → wellKeyed w = true →
    JsEquiv v w → normalizeE v = normalizeE w
  | .vnull, _, _, _, h => by cases h; rfl
  | .vbool b, _, _, _, h => by cases h; rfl
  | .vnum n, _, _, _, h => by cases h; rfl
  | .vstr s, _, _, _, h => by cases h; rfl
  | .vbigint i, _, _, _, h => by cases h; rfl
  | .vdate iso, _, _, _, h => by cases h; rfl
  | .vbuffer b, _, _, _, h => by cases h; rfl
  | .vundef, _, _, _, h => by cases h; rfl
  | .varr xs, w, hv, hw, h => by
    cases h with
    | varr hl =>
      rename_i ys
      rw [wellKeyed_varr] at hv hw
      rw [normalizeE_varr, normalizeE_varr, normEqL xs ys hv hw hl]
  | .vmap es, w, hv, hw, h => by
    cases h with
    | vmap hent hperm =>
      rename_i gs fs
      rw [wellKeyed_vmap] at hv hw
      simp only [Bool.and_eq_true, decide_eq_true_eq] at hv hw
      obtain ⟨hvnd, hvent⟩ := hv
      obtain ⟨hwnd, hwent⟩ := hw
      have hgsent : wellKeyedEntries gs = true :=
        wellKeyedEntries_iff.mpr (fun p hp =>
          wellKeyedEntries_iff.mp hwent p (hperm.mem_iff.mp hp))
      have hkeys : es.map Prod.fst = gs.map Prod.fst := equivEntries_keys hent
      have hgsnd : (gs.map Prod.fst).Nodup := hkeys ▸ hvnd
      have hEq : normalizeEntriesE es = normalizeEntriesE gs :=
        normEqEnt es gs hvent hgsent hent
      rw [normalizeE_vmap, normalizeE_vmap, hEq]
      cases hgs : normalizeEntriesE gs with
      | error e =>
        rw [exceptBind_error]
        have he : e = unsupportedErr := normErrEnt gs hgs
        subst he
        cases hfs : normalizeEntriesE fs with
        | error e2 =>
          rw [exceptBind_error, normErrEnt fs hfs]
        | ok ns =>
          exfalso
          have hF : List.Forall₂ REnt fs ns := entriesE_ok_iff.mp hfs
          obtain ⟨m, hm⟩ := @forall2_exists _ _ REnt gs (fun p hp => by
            obtain ⟨q, hq⟩ := forall2_mem_left hF (hperm.mem_iff.mp hp)
            exact ⟨(p.1, q.2), rfl, hq.2⟩)
          have := entriesE_ok_iff.mpr hm
          rw [hgs] at this
          cases this
      | ok ns =>
        rw [exceptBind_ok]
        have hF1 : List.Forall₂ REnt gs ns := entriesE_ok_iff.mp hgs
        obtain ⟨m, hm⟩ := @forall2_exists _ _ REnt fs (fun p hp => by
          obtain ⟨q, hq⟩ := forall2_mem_left hF1 (hperm.mem_iff.mpr hp)
          exact ⟨(p.1, q.2), rfl, hq.2⟩)
        have hns' : normalizeEntriesE fs = .ok m := entriesE_ok_iff.mpr hm
        rw [hns', exceptBind_ok]
        have hnp : ns.Perm m := List.rel_perm_imp rent_right_unique hF1 hm hperm
        have hnsnd : (ns.map Prod.fst).Nodup := (entries_keys hF1) ▸ hgsnd
        rw [sortKeyed_eq_of_perm hnp hnsnd]
  | .vset xs, w, hv, hw, h => by
    cases h with
    | vset hl hperm =>
      rename_i zs ys
      rw [wellKeyed_vset] at hv hw
      have hzs : wellKeyedList zs = true :=
        wellKeyedList_iff.mpr (fun v hvm =>
          wellKeyedList_iff.mp hw v (hperm.mem_iff.mp hvm))
      have hEq : normalizeListE xs = normalizeListE zs := normEqL xs zs hv hzs hl
      rw [normalizeE_vset, normalizeE_vset, hEq]
      cases hz : normalizeListE zs with
      | error e =>
        rw [exceptBind_error]
        have he : e = unsupportedErr := normErrL zs hz
        subst he
        cases hy : normalizeListE ys with
        | error e2 => rw [exceptBind_error, normErrL ys hy]
        | ok cs =>
          exfalso
          have hF : List.Forall₂ RVal ys cs := listE_ok_iff.mp hy
          obtain ⟨m, hm⟩ := @forall2_exists _ _ RVal zs (fun v hvm => by
            obtain ⟨c, hc⟩ := forall2_mem_left hF (hperm.mem_iff.mp hvm)
            exact ⟨c, hc⟩)
          have := listE_ok_iff.mpr hm
          rw [hz] at this
          cases this
      | ok cs =>
        rw [exceptBind_ok]
        have hF1 : List.Forall₂ RVal zs cs := listE_ok_iff.mp hz
        obtain ⟨m, hm⟩ := @forall2_exists _ _ RVal ys (fun v hvm => by
          obtain ⟨c, hc⟩ := forall2_mem_left hF1 (hperm.mem_iff.mpr hvm)
          exact ⟨c, hc⟩)
        have hcs' : normalizeListE ys = .ok m := listE_ok_iff.mpr hm
        rw [hcs', exceptBind_ok]
        have hnp : cs.Perm m := List.rel_perm_imp rval_right_unique hF1 hm hperm
        rw [sortStringsJs_eq_of_perm (hnp.map jsonStringify)]
  | .vobj es, w, hv, hw, h => by
    cases h with
    | vobj hent hperm =>
      rename_i gs fs
      rw [wellKeyed_vobj] at hv hw
      simp only [Bool.and_eq_true, decide_eq_true_eq] at hv hw
      obtain ⟨hvnd, hvent⟩ := hv
      obtain ⟨hwnd, hwent⟩ := hw
      have hgsent : wellKeyedEntries gs = true :=
        wellKeyedEntries_iff.mpr (fun p hp =>
          wellKeyedEntries_iff.mp hwent p (hperm.mem_iff.mp hp))
      have hkeys : es.map Prod.fst = gs.map Prod.fst := equivEntries_keys hent
      have hgsnd : (gs.map Prod.fst).Nodup := hkeys ▸ hvnd
      have hEq : normalizeEntriesSkipE es = normalizeEntriesSkipE gs :=
        normEqSkip es gs hvent hgsent hent
      rw [normalizeE_vobj, normalizeE_vobj, hEq]
      have hpermf : (gs.filter keepEntry).Perm (fs.filter keepEntry) :=
        hperm.filter keepEntry
      cases hgs : normalizeEntriesSkipE gs with
      | error e =>
        rw [exceptBind_error]
        have he : e = unsupportedErr := normErrSkip gs hgs
        subst he
        cases hfs : normalizeEntriesSkipE fs with
        | error e2 => rw [exceptBind_error, normErrSkip fs hfs]
        | ok ns =>
          exfalso
          have hF : List.Forall₂ REnt (fs.filter keepEntry) ns := skipE_ok_iff.mp hfs
          obtain ⟨m, hm⟩ := @forall2_exists _ _ REnt (gs.filter keepEntry)
            (fun p hp => by
              obtain ⟨q, hq⟩ := forall2_mem_left hF (hpermf.mem_iff.mp hp)
              exact ⟨(p.1, q.2), rfl, hq.2⟩)
          have := skipE_ok_iff.mpr hm
          rw [hgs] at this
          cases this
      | ok ns =>
        rw [exceptBind_ok]
        have hF1 : List.Forall₂ REnt (gs.filter keepEntry) ns := skipE_ok_iff.mp hgs
        obtain ⟨m, hm⟩ := @forall2_exists _ _ REnt (fs.filter keepEntry)
          (fun p hp => by
            obtain ⟨q, hq⟩ := forall2_mem_left hF1 (hpermf.mem_iff.mpr hp)
            exact ⟨(p.1, q.2), rfl, hq.2⟩)
        have hns' : normalizeEntriesSkipE fs = .ok m := skipE_ok_iff.mpr hm
        rw [hns', exceptBind_ok]
        have hnp : ns.Perm m := List.rel_perm_imp rent_right_unique hF1 hm hpermf
        have hsub : List.Sublist ((gs.filter keepEntry).map Prod.fst)
            (gs.map Prod.fst) :=
          List.Sublist.map Prod.fst (List.filter_sublist gs)
        have hfnd : ((gs.filter keepEntry).map Prod.fst).Nodup :=
          hgsnd.sublist hsub
        have hnsnd : (ns.map Prod.fst).Nodup := (entries_keys hF1) ▸ hfnd
        rw [sortKeyed_eq_of_perm hnp hnsnd]
termination_by v => sizeOf v

theorem normEqL : ∀ (xs ys : List JsValue), wellKeyedList xs = true →
    wellKeyedList ys = true → JsEquivList xs ys →
    normalizeListE xs = normalizeListE ys
  | [], _, _, _, h => by cases h; rfl
  | x :: xs, w, hv, hw, h => by
    cases h with
    | cons hx hxs =>
      rename_i y ys
      rw [wellKeyedList_cons] at hv hw
      simp only [Bool.and_eq_true] at hv hw
      rw [normalizeListE_cons, normalizeListE_cons,
        normEqV x y hv.1 hw.1 hx, normEqL xs ys hv.2 hw.2 hxs]
termination_by xs => sizeOf xs

theorem normEqEnt : ∀ (es fs : List (String × JsValue)),
    wellKeyedEntries es = true → wellKeyedEntries fs = true →
    JsEquivEntries es fs → normalizeEntriesE es = normalizeEntriesE fs
  | [], _, _, _, h => by cases h; rfl
  | (k, v) :: es, w, hv, hw, h => by
    cases h with
    | cons hveq hes =>
      rename_i w' fs
      rw [wellKeyedEntries_cons] at hv hw
      simp only [Bool.and_eq_true] at hv hw
      rw [normalizeEntriesE_cons, normalizeEntriesE_cons,
        normEqV v w' hv.1 hw.1 hveq, normEqEnt es fs hv.2 hw.2 hes]
termination_by es => sizeOf es

theorem normEqSkip : ∀ (es fs : List (String × JsValue)),
    wellKeyedEntries es = true → wellKeyedEntries fs = true →
    JsEquivEntries es fs → normalizeEntriesSkipE es = normalizeEntriesSkipE fs
  | [], _, _, _, h => by cases h; rfl
  | (k, v) :: es, w, hv, hw, h => by
    cases h with
    | cons hveq hes =>
      rename_i w' fs
      rw [wellKeyedEntries_cons] at hv hw
      simp only [Bool.and_eq_true] at hv hw
      by_cases hu : v = .vundef
      · subst hu
        have hw' : w' = .vundef := (equiv_undef_iff hveq).mp rfl
        subst hw'
        rw [normalizeEntriesSkipE_cons_undef, normalizeEntriesSkipE_cons_undef]
        exact normEqSkip es fs hv.2 hw.2 hes
      · have hwu : w' ≠ .vundef := fun hh => hu ((equiv_undef_iff hveq).mpr hh)
        rw [normalizeEntriesSkipE_cons k v es hu,
          normalizeEntriesSkipE_cons k w' fs hwu,
          normEqV v w' hv.1 hw.1 hveq, normEqSkip es fs hv.2 hw.2 hes]
termination_by es => sizeOf es

end

/-! ### Canonical-form lemmas (claim C9) -/

theorem canonDoc_cnull : canonDoc .cnull = true := rfl
theorem canonDoc_cbool (b : Bool) : canonDoc (.cbool b) = true := rfl
theorem canonDoc_cnum (n : Int) : canonDoc (.cnum n) = true := rfl
theorem canonDoc_cstr (s : String) : canonDoc (.cstr s) = true := rfl

theorem canonDoc_carr (xs : List CJson) :
    canonDoc (.carr xs) = canonDocList xs := rfl

theorem canonDoc_cobj (es : List (String × CJson)) :
    canonDoc (.cobj es) = (keysSortedStrict es && canonDocEntries es) := rfl

theorem canonDocList_iff : ∀ {xs : List CJson},
    canonDocList xs = true ↔ ∀ c ∈ xs, canonDoc c = true := by
  intro xs
  induction xs with
  | nil => simp [canonDocList]
  | cons x xs ih =>
    show (canonDoc x && canonDocList xs) = true ↔ _
    simp [ih]

theorem canonDocEntries_iff : ∀ {es : List (String × CJson)},
    canonDocEntries es = true ↔ ∀ p ∈ es, canonDoc p.2 = true := by
  intro es
  induction es with
  | nil => simp [canonDocEntries]
  | cons p es ih =>
    obtain ⟨k, v⟩ := p
    show (canonDoc v && canonDocEntries es) = true ↔ _
    simp [ih]

theorem localeLt_trans {a b c : String} (h1 : localeLt a b) (h2 : localeLt b c) :
    localeLt a c := by
  rw [localeLt_iff_le_ne] at h1 h2 ⊢
  refine ⟨localeLe_trans h1.1 h2.1, fun he => ?_⟩
  subst he
  exact localeLt_asymm (localeLt_iff_le_ne.mpr h1) (localeLt_iff_le_ne.mpr h2)

theorem keysSortedStrict_iff : ∀ {es : List (String × CJson)},
    keysSortedStrict es = true ↔ (es.map Prod.fst).Pairwise localeLt := by
  intro es
  induction es with
  | nil => simp [keysSortedStrict]
  | cons p es ih =>
    obtain ⟨k, v⟩ := p
    cases es with
    | nil => simp [keysSortedStrict]
    | cons q es' =>
      obtain ⟨k', v'⟩ := q
      show (decide (localeLt k k') && keysSortedStrict ((k', v') :: es')) = true ↔ _
      rw [Bool.and_eq_true, decide_eq_true_eq, ih]
      simp only [List.map]
      constructor
      · intro ⟨h1, h2⟩
        refine List.Pairwise.cons ?_ h2
        intro b hb
        rcases List.mem_cons.mp hb with hb | hb
        · subst hb; exact h1
        · exact localeLt_trans h1 (List.rel_of_pairwise_cons h2 hb)
      · intro h
        exact ⟨List.rel_of_pairwise_cons h (List.mem_cons_self _ _), h.of_cons⟩

theorem canonList_of_cstr_map {α : Type} (l : List α) (f : α → String) :
    canonDocList (l.map (fun x => .cstr (f x))) = true := by
  induction l with
  | nil => rfl
  | cons x xs ih =>
    show (canonDoc (.cstr (f x)) && _) = true
    simp [canonDoc_cstr, ih]

theorem objInsert_mem : ∀ {es : List (String × CJson)} {p q : String × CJson},
    q ∈ objInsert es p → q ∈ es ∨ q = p := by
  intro es
  induction es with
  | nil =>
    intro p q hq
    simp [objInsert] at hq
    exact .inr hq
  | cons r es ih =>
    intro p q hq
    obtain ⟨k', v'⟩ := r
    rw [objInsert] at hq
    by_cases hk : k' = p.1
    · rw [if_pos hk] at hq
      rcases List.mem_cons.mp hq with hq | hq
      · subst hq
        right
        rw [hk]
      · exact .inl (List.mem_cons_of_mem _ hq)
    · rw [if_neg hk] at hq
      rcases List.mem_cons.mp hq with hq | hq
      · exact .inl (hq ▸ List.mem_cons_self _ _)
      · rcases ih hq with h | h
        · exact .inl (List.mem_cons_of_mem _ h)
        · exact .inr h

theorem objFromEntries_mem : ∀ {l : List (String × CJson)} {q : String × CJson},
    q ∈ objFromEntries l → q ∈ l := by
  suffices h : ∀ (l acc : List (String × CJson)) (q : String × CJson),
      q ∈ List.foldl objInsert acc l → q ∈ acc ∨ q ∈ l by
    intro l q hq
    rcases h l [] q hq with hq' | hq'
    · cases hq'
    · exact hq'
  intro l
  induction l with
  | nil => intro acc q hq; exact .inl hq
  | cons p l ih =>
    intro acc q hq
    rcases ih (objInsert acc p) q hq with hq' | hq'
    · rcases objInsert_mem hq' with h | h
      · exact .inl h
      · exact .inr (h ▸ List.mem_cons_self _ _)
    · exact .inr (List.mem_cons_of_mem _ hq')

theorem objInsert_keys_of_mem : ∀ {es : List (String × CJson)} {p : String × CJson},
    p.1 ∈ es.map Prod.fst → (objInsert es p).map Prod.fst = es.map Prod.fst := by
  intro es
  induction es with
  | nil => intro p hp; cases hp
  | cons r es ih =>
    intro p hp
    obtain ⟨k', v'⟩ := r
    rw [objInsert]
    by_cases hk : k' = p.1
    · rw [if_pos hk]
      simp [hk]
    · rw [if_neg hk]
      simp only [List.map] at hp ⊢
      rcases List.mem_cons.mp hp with hp' | hp'
      · exact absurd hp'.symm hk
      · rw [ih hp']

/-- Folding le-sorted entries into an object yields strictly key-sorted
entries. -/
theorem objFromEntries_strict {l : List (String × CJson)}
    (hs : (l.map Prod.fst).Pairwise localeLe) :
    ((objFromEntries l).map Prod.fst).Pairwise localeLt := by
  suffices h : ∀ (l acc : List (String × CJson)),
      (l.map Prod.fst).Pairwise localeLe →
      (acc.map Prod.fst).Pairwise localeLt →
      (∀ a ∈ acc.map Prod.fst, ∀ b ∈ l.map Prod.fst, localeLe a b) →
      ((List.foldl objInsert acc l).map Prod.fst).Pairwise localeLt by
    exact h l [] hs (by simp) (by simp)
  intro l
  induction l with
  | nil => intro acc _ hacc _; exact hacc
  | cons p l ih =>
    intro acc hl hacc hcross
    simp only [List.map, List.pairwise_cons] at hl
    simp only [List.foldl]
    by_cases hmem : p.1 ∈ acc.map Prod.fst
    · apply ih
      · exact hl.2
      · rw [objInsert_keys_of_mem hmem]
        exact hacc
      · rw [objInsert_keys_of_mem hmem]
        intro a ha b hb
        exact hcross a ha b (by simp [hb])
    · apply ih
      · exact hl.2
      · rw [objInsert_of_not_mem hmem]
        simp only [List.map_append]
        rw [List.pairwise_append]
        refine ⟨hacc, by simp, ?_⟩
        intro a ha b hb
        simp only [List.map, List.mem_singleton] at hb
        subst hb
        have hle : localeLe a p.1 := hcross a ha p.1 (by simp)
        have hne : a ≠ p.1 := fun he => hmem (he ▸ ha)
        exact localeLt_iff_le_ne.mpr ⟨hle, hne⟩
      · rw [objInsert_of_not_mem hmem]
        intro a ha b hb
        simp only [List.map_append, List.mem_append] at ha
        rcases ha with ha | ha
        · exact hcross a ha b (by simp [hb])
        · simp only [List.map, List.mem_singleton] at ha
          subst ha
          exact hl.1 b hb

theorem normalizeE_vnull : normalizeE .vnull = .ok .cnull := rfl
theorem normalizeE_vbool (b : Bool) : normalizeE (.vbool b) = .ok (.cbool b) := rfl
theorem normalizeE_vnum (n : Int) : normalizeE (.vnum n) = .ok (.cnum n) := rfl
theorem normalizeE_vstr (s : String) : normalizeE (.vstr s) = .ok (.cstr s) := rfl
theorem normalizeE_vbigint (i : Int) :
    normalizeE (.vbigint i) = .ok (.cstr (bigintTag ++ toString i)) := rfl
theorem normalizeE_vdate (iso : String) :
    normalizeE (.vdate iso) = .ok (.cstr iso) := rfl
theorem normalizeE_vbuffer (b64 : String) :
    normalizeE (.vbuffer b64) = .ok (.cstr (bufferTag ++ b64)) := rfl
theorem normalizeE_vundef : normalizeE .vundef = .error unsupportedErr := rfl

theorem localeLt_ne {a b : String} (h : localeLt a b) : a ≠ b := by
  intro he
  subst he
  rw [localeLt, localeCmp_eq_iff.mpr rfl] at h
  cases h

mutual

/-- Every document `normalize` outputs is canonical. -/
theorem canonV : ∀ (v : JsValue) (c : CJson),
    normalizeE v = .ok c → canonDoc c = true
  | .vnull, c, he => by rw [normalizeE_vnull] at he; cases he; rfl
  | .vbool b, c, he => by rw [normalizeE_vbool] at he; cases he; rfl
  | .vnum n, c, he => by rw [normalizeE_vnum] at he; cases he; rfl
  | .vstr s, c, he => by rw [normalizeE_vstr] at he; cases he; rfl
  | .vbigint i, c, he => by rw [normalizeE_vbigint] at he; cases he; rfl
  | .vdate iso, c, he => by rw [normalizeE_vdate] at he; cases he; rfl
  | .vbuffer b, c, he => by rw [normalizeE_vbuffer] at he; cases he; rfl
  | .vundef, c, he => by rw [normalizeE_vundef] at he; cases he
  | .varr xs, c, he => by
    rw [normalizeE_varr] at he
    cases hx : normalizeListE xs with
    | error e => rw [hx, exceptBind_error] at he; cases he
    | ok cs =>
      rw [hx, exceptBind_ok] at he
      cases he
      rw [canonDoc_carr]
      exact canonL xs cs hx
  | .vmap es, c, he => by
    rw [normalizeE_vmap] at he
    cases hx : normalizeEntriesE es with
    | error e => rw [hx, exceptBind_error] at he; cases he
    | ok ns =>
      rw [hx, exceptBind_ok] at he
      cases he
      rw [canonDoc_carr]
      exact canonList_of_cstr_map _ _
  | .vset xs, c, he => by
    rw [normalizeE_vset] at he
    cases hx : normalizeListE xs with
    | error e => rw [hx, exceptBind_error] at he; cases he
    | ok cs =>
      rw [hx, exceptBind_ok] at he
      cases he
      rw [canonDoc_carr]
      exact canonList_of_cstr_map _ _
  | .vobj es, c, he => by
    rw [normalizeE_vobj] at he
    cases hx : normalizeEntriesSkipE es with
    | error e => rw [hx, exceptBind_error] at he; cases he
    | ok ns =>
      rw [hx, exceptBind_ok] at he
      cases he
      rw [canonDoc_cobj, Bool.and_eq_true]
      constructor
      · rw [keysSortedStrict_iff]
        apply objFromEntries_strict
        exact List.pairwise_map.mpr ((sortKeyed_sorted ns).imp (fun h => h))
      · rw [canonDocEntries_iff]
        intro p hp
        have hp2 : p ∈ ns := (sortKeyed_perm ns).subset (objFromEntries_mem hp)
        exact canonDocEntries_iff.mp (canonSkip es ns hx) p hp2
termination_by v => sizeOf v

theorem canonL : ∀ (xs : List JsValue) (cs : List CJson),
    normalizeListE xs = .ok cs → canonDocList cs = true
  | [], cs, he => by rw [normalizeListE_nil] at he; cases he; rfl
  | x :: xs, cs, he => by
    rw [normalizeListE_cons] at he
    cases hx : normalizeE x with
    | error e => rw [hx, exceptBind_error] at he; cases he
    | ok c =>
      rw [hx, exceptBind_ok] at he
      cases hy : normalizeListE xs with
      | error e => rw [hy, exceptBind_error] at he; cases he
      | ok cs' =>
        rw [hy, exceptBind_ok] at he
        cases he
        show (canonDoc c && canonDocList cs') = true
        rw [canonV x c hx, canonL xs cs' hy]
        rfl
termination_by xs => sizeOf xs

theorem canonSkip : ∀ (es : List (String × JsValue)) (ns : List (String × CJson)),
    normalizeEntriesSkipE es = .ok ns → canonDocEntries ns = true
  | [], ns, he => by rw [normalizeEntriesSkipE_nil] at he; cases he; rfl
  | (k, v) :: es, ns, he => by
    by_cases hu : v = .vundef
    · subst hu
      rw [normalizeEntriesSkipE_cons_undef] at he
      exact canonSkip es ns he
    · rw [normalizeEntriesSkipE_cons k v es hu] at he
      cases hx : normalizeE v with
      | error e => rw [hx, exceptBind_error] at he; cases he
      | ok c =>
        rw [hx, exceptBind_ok] at he
        cases hy : normalizeEntriesSkipE es with
        | error e => rw [hy, exceptBind_error] at he; cases he
        | ok ns' =>
          rw [hy, exceptBind_ok] at he
          cases he
          show (canonDoc c && canonDocEntries ns') = true
          rw [canonV v c hx, canonSkip es ns' hy]
          rfl
termination_by es => sizeOf es

end

theorem cjToJs_ne_vundef : ∀ (c : CJson), cjToJs c ≠ .vundef := by
  intro c
  cases c <;> simp [cjToJs]

theorem cjToJsList_nil : cjToJsList [] = [] := rfl
theorem cjToJsList_cons (x : CJson) (xs : List CJson) :
    cjToJsList (x :: xs) = cjToJs x :: cjToJsList xs := rfl
theorem cjToJsEntries_nil : cjToJsEntries [] = [] := rfl
theorem cjToJsEntries_cons (k : String) (v : CJson)
    (es : List (String × CJson)) :
    cjToJsEntries ((k, v) :: es) = (k, cjToJs v) :: cjToJsEntries es := rfl

mutual

/-- Normalizing (the value form of) a canonical document returns it
unchanged. -/
theorem canonFixV : ∀ (c : CJson), canonDoc c = true →
    normalizeE (cjToJs c) = .ok c
  | .cnull, _ => rfl
  | .cbool b, _ => rfl
  | .cnum n, _ => rfl
  | .cstr s, _ => rfl
  | .carr xs, hc => by
    show normalizeE (.varr (cjToJsList xs)) = .ok (.carr xs)
    rw [canonDoc_carr] at hc
    rw [normalizeE_varr, canonFixL xs hc, exceptBind_ok]
  | .cobj es, hc => by
    show normalizeE (.vobj (cjToJsEntries es)) = .ok (.cobj es)
    rw [canonDoc_cobj, Bool.and_eq_true] at hc
    obtain ⟨hsorted, hvals⟩ := hc
    rw [normalizeE_vobj, canonFixEntries es hvals, exceptBind_ok]
    rw [keysSortedStrict_iff] at hsorted
    have hstrict : es.Pairwise (fun p q : String × CJson => localeLt p.1 q.1) :=
      List.pairwise_map.mp hsorted
    have hle : es.Pairwise keyLe :=
      hstrict.imp (fun h => localeLe_iff.mpr (.inl h))
    have hsort : sortKeyed es = es := List.Sorted.insertionSort_eq hle
    rw [hsort]
    have hnd : (es.map Prod.fst).Nodup :=
      hsorted.imp (fun h => localeLt_ne h)
    rw [objFromEntries_of_nodup hnd]
termination_by c => sizeOf c

theorem canonFixL : ∀ (xs : List CJson), canonDocList xs = true →
    normalizeListE (cjToJsList xs) = .ok xs
  | [], _ => rfl
  | x :: xs, hc => by
    have hc' : (canonDoc x && canonDocList xs) = true := hc
    rw [Bool.and_eq_true] at hc'
    rw [cjToJsList_cons, normalizeListE_cons, canonFixV x hc'.1, exceptBind_ok,
      canonFixL xs hc'.2, exceptBind_ok]
termination_by xs => sizeOf xs

theorem canonFixEntries : ∀ (es : List (String × CJson)),
    canonDocEntries es = true →
    normalizeEntriesSkipE (cjToJsEntries es) = .ok es
  | [], _ => rfl
  | (k, v) :: es, hc => by
    have hc' : (canonDoc v && canonDocEntries es) = true := hc
    rw [Bool.and_eq_true] at hc'
    rw [cjToJsEntries_cons,
      normalizeEntriesSkipE_cons k (cjToJs v) _ (cjToJs_ne_vundef v),
      canonFixV v hc'.1, exceptBind_ok, canonFixEntries es hc'.2, exceptBind_ok]
termination_by es => sizeOf es

end

/-! ### Field-frame lemma for object spread -/

theorem find_setEntries_ne : ∀ (es : List (String × CJson)) (k : String)
    (v : CJson) (f : String), f ≠ k →
    (setEntries es k v).find? (fun p => p.1 == f) =
      es.find? (fun p => p.1 == f) := by
  intro es k v f hf
  induction es with
  | nil =>
    show List.find? _ [(k, v)] = List.find? _ []
    have : (k == f) = false := by
      rw [beq_eq_false_iff_ne]
      exact fun h => hf h.symm
    simp [List.find?, this]
  | cons r es ih =>
    obtain ⟨k', v'⟩ := r
    rw [setEntries]
    by_cases hk : k' = k
    · rw [if_pos hk]
      subst hk
      have : (k' == f) = false := by
        rw [beq_eq_false_iff_ne]
        exact fun h => hf h.symm
      simp [List.find?, this]
    · rw [if_neg hk]
      by_cases hk'f : k' = f
      · subst hk'f
        simp [List.find?]
      · have : (k' == f) = false := by
          rw [beq_eq_false_iff_ne]
          exact hk'f
        simp [List.find?, this, ih]

/-- Fields other than the one assigned are untouched by `{...doc, k: v}`. -/
theorem lookupField_setField_ne (doc : CJson) (k : String) (v : CJson)
    (f : String) (hf : f ≠ k) :
    lookupField (setField doc k v) f = lookupField doc f := by
  cases doc with
  | cobj es =>
    show ((setEntries es k v).find? (fun p => p.1 == f)).map _ =
      (es.find? (fun p => p.1 == f)).map _
    rw [find_setEntries_ne es k v f hf]
  | cnull =>
    show ([(k, v)].find? (fun p => p.1 == f)).map (fun p => p.2) = none
    have : (k == f) = false := by
      rw [beq_eq_false_iff_ne]
      exact fun h => hf h.symm
    simp [List.find?, this]
  | cbool b =>
    show ([(k, v)].find? (fun p => p.1 == f)).map (fun p => p.2) = none
    have : (k == f) = false := by
      rw [beq_eq_false_iff_ne]
      exact fun h => hf h.symm
    simp [List.find?, this]
  | cnum n =>
    show ([(k, v)].find? (fun p => p.1 == f)).map (fun p => p.2) = none
    have : (k == f) = false := by
      rw [beq_eq_false_iff_ne]
      exact fun h => hf h.symm
    simp [List.find?, this]
  | cstr s =>
    show ([(k, v)].find? (fun p => p.1 == f)).map (fun p => p.2) = none
    have : (k == f) = false := by
      rw [beq_eq_false_iff_ne]
      exact fun h => hf h.symm
    simp [List.find?, this]
  | carr xs =>
    show ([(k, v)].find? (fun p => p.1 == f)).map (fun p => p.2) = none
    have : (k == f) = false := by
      rw [beq_eq_false_iff_ne]
      exact fun h => hf h.symm
    simp [List.find?, this]

/-- The hash algorithm a validated manager ends up with. -/
theorem mkManager_hashAlg {o : ManagerOptions} {cfg : ManagerConfig}
    (h : mkManager true o = .ok cfg) :
    cfg.hashAlgorithm = o.hashAlgorithm.getD .sha256 := by
  unfold mkManager at h
  simp only [Bool.not_true, Bool.false_eq_true, if_false] at h
  rcases hd : o.defaultTtlSeconds with _ | (_ | q) <;> rw [hd] at h
  · cases h
    rfl
  · cases h
    rfl
  · simp only [] at h
    by_cases hq : q.den ≠ 1 ∨ q.num ≤ 0
    · rw [if_pos hq] at h
      cases h
    · rw [if_neg hq] at h
      cases h
      rfl

/-! ### Shared example values for witnesses -/

/-- A plain valid manager configuration (all defaults). -/
def cfgEx : ManagerConfig := ⟨"idempotency", none, .sha256, false⟩

/-- An example digest function: the identity on the canonical string. -/
def hashEx : HashAlgorithm → String → String := fun _ s => s

/-- An example stored record. -/
def recEx : IdempotencyRecord := ⟨"i", "i", "t", none, none, some (some 5)⟩

/-! ### The claims -/

/-- C4: TTL resolution in `register` and `updateTtl`: an explicit per-call
ttlSeconds overrides the manager default; an omitted (undefined) ttlSeconds
falls back to the manager default or none; an explicit 0 or null resolves
to null (no expiration); and a negative or non-integer ttlSeconds raises a
configuration error before any store I/O is performed (the call list of the
run is empty). -/
theorem c4_ttl_resolution :
    (∀ cfg : ManagerConfig, resolveTtl cfg none = .ok cfg.defaultTtlSeconds) ∧
    (∀ cfg : ManagerConfig, resolveTtl cfg (some none) = .ok none) ∧
    (∀ (cfg : ManagerConfig) (q : Rat), q.den = 1 → 0 < q.num →
      resolveTtl cfg (some (some q)) = .ok (some q.num)) ∧
    (∀ cfg : ManagerConfig, resolveTtl cfg (some (some 0)) = .ok none) ∧
    (∀ (cfg : ManagerConfig) (q : Rat), q.den ≠ 1 ∨ q.num < 0 →
      resolveTtl cfg (some (some q)) =
        .error (.generic "TTL must be a positive integer, null, or undefined")) ∧
    (∀ (cfg : ManagerConfig) (hashFn : HashAlgorithm → String → String)
      (payload : JsValue) (opts : RegisterOptions) (now : String)
      (insertResp : Bool) (getResp : Option StoreValue) (c : String) (e : IdemErr),
      canonicalizeE payload = .ok c →
      resolveTtl cfg opts.ttlSeconds = .error e →
      registerRun cfg hashFn payload opts now insertResp getResp = (.error e, [])) ∧
    (∀ (cfg : ManagerConfig) (id : String) (t : Option (Option Rat))
      (getResp : Option StoreValue) (e : IdemErr),
      resolveTtl cfg t = .error e →
      updateTtlRun cfg id t getResp = (.error e, [])) := by
  refine ⟨fun cfg => rfl, fun cfg => rfl, ?_, fun cfg => rfl, ?_, ?_, ?_⟩
  · intro cfg q h1 h2
    unfold resolveTtl
    simp only []
    rw [if_neg (by push_neg; exact ⟨h1, by omega⟩), if_neg (by omega)]
  · intro cfg q h
    unfold resolveTtl
    simp only []
    rw [if_pos h]
  · intro cfg hashFn payload opts now insertResp getResp c e hc ht
    unfold registerRun
    rw [hc]
    simp only []
    rw [ht]
  · intro cfg id t getResp e ht
    unfold updateTtlRun
    rw [ht]

/-- C4 witness: a positive integer TTL of 5 resolves to 5 for a manager
with no default, and a negative TTL makes `updateTtl` fail with the
configuration error before any store call. -/
theorem c4_witness :
    resolveTtl cfgEx (some (some (5 : Rat))) = .ok (some 5) ∧
    updateTtlRun cfgEx "x" (some (some (-1 : Rat))) none =
      (.error (.generic "TTL must be a positive integer, null, or undefined"), []) :=
  ⟨c4_ttl_resolution.2.2.1 cfgEx 5 (by decide) (by decide),
    c4_ttl_resolution.2.2.2.2.2.2 cfgEx "x" (some (some (-1 : Rat))) none _
      (by rfl)⟩

/-- C5: `updateTtl` on an absent storage key fails with a "missing key"
error, makes exactly one store call (the read), and performs no mutating
store call: the store is left unchanged and no record is created. -/
theorem c5_missing_key (cfg : ManagerConfig) (id : String)
    (t : Option (Option Rat)) (ttl : Option Int)
    (ht : resolveTtl cfg t = .ok ttl) :
    updateTtlRun cfg id t none =
      (.error (.generic ("Cannot update TTL for missing key " ++ buildKey cfg id)),
        [.get (buildKey cfg id)]) ∧
    ∀ call ∈ (updateTtlRun cfg id t none).2, call.isMutation = false := by
  have h : updateTtlRun cfg id t none =
      (.error (.generic ("Cannot update TTL for missing key " ++ buildKey cfg id)),
        [.get (buildKey cfg id)]) := by
    unfold updateTtlRun
    rw [ht]
  refine ⟨h, ?_⟩
  rw [h]
  intro call hc
  rcases List.mem_singleton.mp hc with rfl
  rfl

/-- C5 witness: updating the TTL of an unregistered id fails with the
missing-key error and no mutating call. -/
theorem c5_witness :
    updateTtlRun cfgEx "missing" none none =
      (.error (.generic ("Cannot update TTL for missing key " ++
        buildKey cfgEx "missing")), [.get (buildKey cfgEx "missing")]) :=
  (c5_missing_key cfgEx "missing" none none (by rfl)).1

/-- C6: a successful `updateTtl` rewrites the stored record with only the
`ttlSeconds` field changed: the run performs exactly the read and the
update, the update writes `{...existing, ttlSeconds: ...}`, and every field
other than `ttlSeconds` of the written document (in particular `id`,
`payloadHash`, `createdAt`, `metadata`, `canonicalPayload`) equals the
previously stored one. -/
theorem c6_update_rewrites_ttl_only (cfg : ManagerConfig) (id : String)
    (t : Option (Option Rat)) (ttl : Option Int) (sv : StoreValue) (doc : CJson)
    (ht : resolveTtl cfg t = .ok ttl)
    (hd : deserializeRecordDoc sv.value = .ok doc) :
    updateTtlRun cfg id t (some sv) =
      (.ok (), [.get (buildKey cfg id),
        .update (buildKey cfg id)
          (setField doc "ttlSeconds"
            (if isFiniteTtl ttl then
              match ttl with
              | some n => CJson.cnum n
              | none => CJson.cnull
            else CJson.cnull)) ttl]) ∧
    ∀ f, f ≠ "ttlSeconds" →
      lookupField (setField doc "ttlSeconds"
        (if isFiniteTtl ttl then
          match ttl with
          | some n => CJson.cnum n
          | none => CJson.cnull
        else CJson.cnull)) f = lookupField doc f := by
  constructor
  · unfold updateTtlRun
    simp only [ht, hd]
    cases ttl <;> rfl
  · intro f hf
    exact lookupField_setField_ne doc "ttlSeconds" _ f hf

/-- C6 witness: removing the TTL of a stored record rewrites it with
`ttlSeconds: null` and leaves the `payloadHash` field unchanged. -/
theorem c6_witness :
    updateTtlRun cfgEx "i" (some none) (some ⟨recordToDoc recEx, some 5⟩) =
      (.ok (), [.get (buildKey cfgEx "i"),
        .update (buildKey cfgEx "i")
          (setField (recordToDoc recEx) "ttlSeconds"
            (if isFiniteTtl none then
              match (none : Option Int) with
              | some n => CJson.cnum n
              | none => CJson.cnull
            else CJson.cnull)) none]) ∧
    lookupField (setField (recordToDoc recEx) "ttlSeconds"
        (if isFiniteTtl none then
          match (none : Option Int) with
          | some n => CJson.cnum n
          | none => CJson.cnull
        else CJson.cnull)) "payloadHash" =
      lookupField (recordToDoc recEx) "payloadHash" := by
  have h := c6_update_rewrites_ttl_only cfgEx "i" (some none) none
    ⟨recordToDoc recEx, some 5⟩ (recordToDoc recEx) (by rfl) (by rfl)
  exact ⟨h.1, h.2 "payloadHash" (by decide)⟩

/-- C7: record serialization round-trips losslessly — the serialized
document passes deserialization unchanged and determines the record — and
deserialization fails with the structural-shape error exactly when the
parsed value is not an object or its `id` field is not a string. -/
theorem c7_serialization_roundtrip :
    (∀ r : IdempotencyRecord,
      deserializeRecordDoc (recordToDoc r) = .ok (recordToDoc r)) ∧
    (∀ r : IdempotencyRecord, docToRecord (recordToDoc r) = some r) ∧
    (∀ doc : CJson,
      deserializeRecordDoc doc = .error recordShapeErr ↔
        ¬ ∃ es, doc = .cobj es ∧ ∃ s, lookupField doc "id" = some (.cstr s)) := by
  refine ⟨?_, ?_, ?_⟩
  · intro r
    obtain ⟨i, p, c, md, cp, ts⟩ := r
    rcases md with _ | m <;> rcases cp with _ | cp' <;>
      rcases ts with _ | (_ | n) <;> rfl
  · intro r
    obtain ⟨i, p, c, md, cp, ts⟩ := r
    rcases md with _ | m <;> rcases cp with _ | cp' <;>
      rcases ts with _ | (_ | n) <;> rfl
  · intro doc
    cases doc with
    | cobj es =>
      unfold deserializeRecordDoc docShapeOk lookupField
      cases hf : es.find? (fun p => p.1 == "id") with
      | none => simp [hf, recordShapeErr]
      | some p =>
        obtain ⟨k, val⟩ := p
        cases val <;> simp [hf, recordShapeErr]
    | cnull => simp [deserializeRecordDoc, docShapeOk, lookupField, recordShapeErr]
    | cbool b => simp [deserializeRecordDoc, docShapeOk, lookupField, recordShapeErr]
    | cnum n => simp [deserializeRecordDoc, docShapeOk, lookupField, recordShapeErr]
    | cstr s => simp [deserializeRecordDoc, docShapeOk, lookupField, recordShapeErr]
    | carr xs => simp [deserializeRecordDoc, docShapeOk, lookupField, recordShapeErr]

/-- C8: `lookupById` returns null exactly when the store reports the key
absent; otherwise it returns id, key, the stored record, and a remaining
TTL that prefers the store-reported value and falls back to the record's
embedded `ttlSeconds`, then null.  `lookupByPayload` is `lookupById` after
canonicalize-and-hash.  Both are read-only (the run performs only the one
`get`). -/
theorem c8_lookup (cfg : ManagerConfig) (id : String) :
    (lookupByIdRun cfg id none = (.ok none, [.get (buildKey cfg id)])) ∧
    (∀ resp, (lookupByIdRun cfg id resp).1 = .ok none ↔ resp = none) ∧
    (∀ (sv : StoreValue) (doc : CJson), deserializeRecordDoc sv.value = .ok doc →
      lookupByIdRun cfg id (some sv) =
        (.ok (some ⟨id, buildKey cfg id, doc,
          match sv.ttlSeconds with
          | some n => some (.cnum n)
          | none =>
            match lookupField doc "ttlSeconds" with
            | none => none
            | some .cnull => none
            | some j => some j⟩), [.get (buildKey cfg id)])) ∧
    (∀ (hashFn : HashAlgorithm → String → String) (payload : JsValue)
      (c : String) (resp : Option StoreValue), canonicalizeE payload = .ok c →
      lookupByPayloadRun cfg hashFn payload resp =
        lookupByIdRun cfg (hashFn cfg.hashAlgorithm c) resp) := by
  refine ⟨rfl, ?_, ?_, ?_⟩
  · intro resp
    cases resp with
    | none => simp [lookupByIdRun]
    | some sv =>
      unfold lookupByIdRun
      simp only []
      cases hd : deserializeRecordDoc sv.value <;> simp
  · intro sv doc hd
    unfold lookupByIdRun
    simp only [hd]
  · intro hashFn payload c resp hc
    unfold lookupByPayloadRun
    rw [hc]

/-- C8 witness: an absent key looks up to null; a present record with no
store-reported TTL falls back to its embedded `ttlSeconds` of 5. -/
theorem c8_witness :
    lookupByIdRun cfgEx "i" none = (.ok none, [.get (buildKey cfgEx "i")]) ∧
    lookupByIdRun cfgEx "i" (some ⟨recordToDoc recEx, none⟩) =
      (.ok (some ⟨"i", buildKey cfgEx "i", recordToDoc recEx,
        match (⟨recordToDoc recEx, none⟩ : StoreValue).ttlSeconds with
        | some n => some (.cnum n)
        | none =>
          match lookupField (recordToDoc recEx) "ttlSeconds" with
          | none => none
          | some .cnull => none
          | some j => some j⟩), [.get (buildKey cfgEx "i")]) :=
  ⟨(c8_lookup cfgEx "i").1,
    (c8_lookup cfgEx "i").2.2.1 ⟨recordToDoc recEx, none⟩ (recordToDoc recEx)
      (by rfl)⟩

/-- C10: the standalone `steadyKey` helper computes exactly what
`generateId` computes on a manager configured with the same hash
algorithm, and both default to sha256 when no algorithm is given. -/
theorem c10_steadyKey_matches_generateId
    (hashFn : HashAlgorithm → String → String) (o : ManagerOptions)
    (cfg : ManagerConfig) (p : JsValue) :
    (∀ a, mkManager true o = .ok cfg → o.hashAlgorithm = some a →
      steadyKeyE hashFn p (some a) = generateIdE cfg hashFn p) ∧
    (mkManager true o = .ok cfg → o.hashAlgorithm = none →
      steadyKeyE hashFn p none = generateIdE cfg hashFn p ∧
        cfg.hashAlgorithm = .sha256) := by
  constructor
  · intro a hmk ha
    have := mkManager_hashAlg hmk
    rw [ha] at this
    unfold steadyKeyE generateIdE
    rw [this]
  · intro hmk ha
    have := mkManager_hashAlg hmk
    rw [ha] at this
    refine ⟨?_, this⟩
    unfold steadyKeyE generateIdE
    rw [this]

/-- C10 witness: with an explicit sha512 algorithm the helper and the
manager agree on a concrete payload. -/
theorem c10_witness :
    steadyKeyE hashEx (.vstr "p") (some .sha512) =
      generateIdE ⟨"idempotency", none, .sha512, false⟩ hashEx (.vstr "p") :=
  (c10_steadyKey_matches_generateId hashEx
    ⟨none, none, some .sha512, none⟩ ⟨"idempotency", none, .sha512, false⟩
    (.vstr "p")).1 .sha512 (by rfl) (by rfl)

/-- C1: the register protocol.  When the conditional insert succeeds,
`register` returns `{stored: true}` with the fresh record.  When the insert
reports "already present": a follow-up read returning nothing fails with
the (non-collision) concurrent-deletion consistency error; a read whose
record's `payloadHash` differs from the freshly computed id fails with the
collision error (a distinguishable kind); otherwise `register` returns
`{stored: false}` carrying the existing stored record, and the run never
issues a store write beyond the conditional insert (it never overwrites). -/
theorem c1_register_protocol (cfg : ManagerConfig)
    (hashFn : HashAlgorithm → String → String) (payload : JsValue)
    (opts : RegisterOptions) (now : String) (c : String) (ttl : Option Int)
    (hc : canonicalizeE payload = .ok c)
    (ht : resolveTtl cfg opts.ttlSeconds = .ok ttl) :
    let id := hashFn cfg.hashAlgorithm c
    let key := buildKey cfg id
    let record : IdempotencyRecord := ⟨id, id, now, opts.metadata,
      if opts.storeCanonicalPayload.getD cfg.storeCanonicalPayload
        then some c else none, some ttl⟩
    (∀ getResp, registerRun cfg hashFn payload opts now true getResp =
      (.ok ⟨id, key, true, recordToDoc record⟩,
        [.setIfAbsent key (recordToDoc record) ttl])) ∧
    (registerRun cfg hashFn payload opts now false none =
      (.error (.generic "Failed to persist idempotency record due to concurrent deletion"),
        [.setIfAbsent key (recordToDoc record) ttl, .get key]) ∧
      (IdemErr.generic "Failed to persist idempotency record due to concurrent deletion").isCollision
        = false) ∧
    (∀ (sv : StoreValue) (doc : CJson), deserializeRecordDoc sv.value = .ok doc →
      lookupField doc "payloadHash" ≠ some (.cstr id) →
      registerRun cfg hashFn payload opts now false (some sv) =
        (.error (.collision ("Collision detected for key " ++ key)),
          [.setIfAbsent key (recordToDoc record) ttl, .get key]) ∧
      (IdemErr.collision ("Collision detected for key " ++ key)).isCollision = true) ∧
    (∀ (sv : StoreValue) (doc : CJson), deserializeRecordDoc sv.value = .ok doc →
      lookupField doc "payloadHash" = some (.cstr id) →
      registerRun cfg hashFn payload opts now false (some sv) =
        (.ok ⟨id, key, false, doc⟩,
          [.setIfAbsent key (recordToDoc record) ttl, .get key])) := by
  intro id key record
  refine ⟨?_, ⟨?_, rfl⟩, ?_, ?_⟩
  · intro getResp
    unfold registerRun
    simp [hc, ht]
  · unfold registerRun
    simp [hc, ht]
  · intro sv doc hd hne
    refine ⟨?_, rfl⟩
    unfold registerRun
    simp [hc, ht, hd]
    exact hne
  · intro sv doc hd heq
    unfold registerRun
    simp [hc, ht, hd, heq]

/-- C1 witness: with the identity digest and payload `"p"`, a successful
insert stores the fresh record, and a duplicate whose stored `payloadHash`
matches returns `{stored: false}` with the existing record. -/
theorem c1_witness :
    registerRun cfgEx hashEx (.vstr "p") ⟨none, none, none⟩ "t" true none =
      (.ok ⟨"\"p\"", buildKey cfgEx "\"p\"", true,
        recordToDoc ⟨"\"p\"", "\"p\"", "t", none, none, some none⟩⟩,
        [.setIfAbsent (buildKey cfgEx "\"p\"")
          (recordToDoc ⟨"\"p\"", "\"p\"", "t", none, none, some none⟩) none]) ∧
    registerRun cfgEx hashEx (.vstr "p") ⟨none, none, none⟩ "t" false
        (some ⟨recordToDoc ⟨"\"p\"", "\"p\"", "t2", none, none, some none⟩, none⟩) =
      (.ok ⟨"\"p\"", buildKey cfgEx "\"p\"", false,
        recordToDoc ⟨"\"p\"", "\"p\"", "t2", none, none, some none⟩⟩,
        [.setIfAbsent (buildKey cfgEx "\"p\"")
          (recordToDoc ⟨"\"p\"", "\"p\"", "t", none, none, some none⟩) none,
          .get (buildKey cfgEx "\"p\"")]) := by
  have h := c1_register_protocol cfgEx hashEx (.vstr "p") ⟨none, none, none⟩
    "t" "\"p\"" none (by rfl) (by rfl)
  exact ⟨h.1 none,
    h.2.2.2 ⟨recordToDoc ⟨"\"p\"", "\"p\"", "t2", none, none, some none⟩, none⟩
      (recordToDoc ⟨"\"p\"", "\"p\"", "t2", none, none, some none⟩)
      (by rfl) (by rfl)⟩

/-- C2 counterexample: the claim fails as stated.  The `Map`
`new Map([[1, "x"], ["1", "y"]])` — whose two distinct keys both stringify
to `"1"` — and the same map with its two entries permuted are equivalent
map-like payloads, yet canonicalize to different strings: the entry sort
compares only (stringified) keys, the comparator ties, and the stable sort
preserves each insertion order. -/
theorem c2_counterexample :
    JsEquiv (.vmap [("1", .vstr "x"), ("1", .vstr "y")])
      (.vmap [("1", .vstr "y"), ("1", .vstr "x")]) ∧
    canonicalizeE (.vmap [("1", .vstr "x"), ("1", .vstr "y")]) ≠
      canonicalizeE (.vmap [("1", .vstr "y"), ("1", .vstr "x")]) := by
  constructor
  · exact .vmap
      (.cons (.vstr "x") (.cons (.vstr "y") .nil))
      (List.Perm.swap _ _ _)
  · intro h
    rw [show canonicalizeE (.vmap [("1", .vstr "x"), ("1", .vstr "y")]) =
        .ok "[\"map:1:\\\"x\\\"\",\"map:1:\\\"y\\\"\"]" from rfl,
      show canonicalizeE (.vmap [("1", .vstr "y"), ("1", .vstr "x")]) =
        .ok "[\"map:1:\\\"y\\\"\",\"map:1:\\\"x\\\"\"]" from rfl] at h
    exact absurd (Except.ok.inj h) (by decide)

/-- C2 amended: permutation invariance holds for every keyed-record,
map-like, or set-like payload provided each map and keyed-record node has
pairwise-distinct (stringified) keys — automatic for real keyed records,
while a real `Map` can violate it only when distinct keys stringify equal
(e.g. `1` and `"1"`).  Under that discipline, any permutation of top-level
and nested entries yields a byte-identical `canonicalize` output and an
identical `generateId` result. -/
theorem c2_amended (v w : JsValue) (hv : wellKeyed v = true)
    (hw : wellKeyed w = true) (h : JsEquiv v w) :
    canonicalizeE v = canonicalizeE w ∧
    ∀ (cfg : ManagerConfig) (hashFn : HashAlgorithm → String → String),
      generateIdE cfg hashFn v = generateIdE cfg hashFn w := by
  have hn := normEqV v w hv hw h
  constructor
  · unfold canonicalizeE
    rw [hn]
  · intro cfg hashFn
    unfold generateIdE canonicalizeE
    rw [hn]

/-- C2 witness: permuting the keys of a concrete keyed record (nested
inside nothing) leaves the canonical string and the generated id
unchanged. -/
theorem c2_witness :
    canonicalizeE (.vobj [("b", .vnum 1), ("a", .vnum 2)]) =
      canonicalizeE (.vobj [("a", .vnum 2), ("b", .vnum 1)]) ∧
    generateIdE cfgEx hashEx (.vobj [("b", .vnum 1), ("a", .vnum 2)]) =
      generateIdE cfgEx hashEx (.vobj [("a", .vnum 2), ("b", .vnum 1)]) := by
  have h := c2_amended (.vobj [("b", .vnum 1), ("a", .vnum 2)])
    (.vobj [("a", .vnum 2), ("b", .vnum 1)]) (by rfl) (by rfl)
    (.vobj (.cons (.vnum 1) (.cons (.vnum 2) .nil)) (List.Perm.swap _ _ _))
  exact ⟨h.1, h.2 cfgEx hashEx⟩

/-- C3 counterexample: the claim fails as stated for keyed-record (and map)
key sorts.  In code-unit order `"B"` (0x42) precedes `"a"` (0x61), so the
claim requires `"B"` to be placed first; the code's `localeCompare` sort
places `"a"` first. -/
theorem c3_counterexample :
    canonicalizeE (.vobj [("B", .vnum 2), ("a", .vnum 1)]) =
      .ok "\x7b\"a\":1,\"B\":2\x7d" ∧
    ¬ jsLt "a" "B" ∧ jsLt "B" "a" := by
  refine ⟨rfl, by decide, by decide⟩

/-- C3 amended: the `Set` encoding sort is plain code-unit (ordinal)
comparison, but the `Map`-key and keyed-record-key sorts use locale-aware
`localeCompare` (so for example `"a"` sorts before `"B"`), not code-unit
order.  Each sort orders its output accordingly: key sorts are
`localeCompare`-sorted permutations of their input, the set sort a
code-unit-sorted permutation, and normalized keyed records end up strictly
`localeCompare`-sorted. -/
theorem c3_amended :
    (∀ (α : Type) (l : List (String × α)),
      (sortKeyed l).Pairwise keyLe ∧ (sortKeyed l).Perm l) ∧
    (∀ l : List String,
      (sortStringsJs l).Pairwise jsLe ∧ (sortStringsJs l).Perm l) ∧
    (∀ (es : List (String × JsValue)) (fs : List (String × CJson)),
      normalizeE (.vobj es) = .ok (.cobj fs) →
      (fs.map Prod.fst).Pairwise localeLt) ∧
    (localeLt "a" "B" ∧ ¬ jsLt "a" "B") := by
  refine ⟨fun α l => ⟨sortKeyed_sorted l, sortKeyed_perm l⟩,
    fun l => ⟨sortStringsJs_sorted l, sortStringsJs_perm l⟩, ?_, by decide, by decide⟩
  intro es fs he
  rw [normalizeE_vobj] at he
  cases hx : normalizeEntriesSkipE es with
  | error e => rw [hx, exceptBind_error] at he; cases he
  | ok ns =>
    rw [hx, exceptBind_ok] at he
    cases he
    apply objFromEntries_strict
    exact List.pairwise_map.mpr ((sortKeyed_sorted ns).imp (fun h => h))

/-- C3 amended witness: the object with keys `"B"` and `"a"` normalizes
with its keys strictly localeCompare-sorted. -/
theorem c3_amended_witness :
    (([("a", CJson.cnum 1), ("B", CJson.cnum 2)]).map Prod.fst).Pairwise localeLt :=
  c3_amended.2.2.1 [("B", .vnum 2), ("a", .vnum 1)]
    [("a", CJson.cnum 1), ("B", CJson.cnum 2)] (by rfl)

/-- C9: normalization is idempotent — normalizing the (value form of the)
already-normalized result returns it unchanged, and hence canonicalizing a
canonical value just re-serializes it. -/
theorem c9_normalize_idempotent (v : JsValue) (c : CJson)
    (h : normalizeE v = .ok c) :
    normalizeE (cjToJs c) = .ok c ∧
    canonicalizeE (cjToJs c) = .ok (jsonStringify c) := by
  have h2 := canonFixV c (canonV v c h)
  refine ⟨h2, ?_⟩
  unfold canonicalizeE
  rw [h2]

/-- C9 witness: the canonical form of a concrete two-key object (which
sorting reordered) re-normalizes to itself. -/
theorem c9_witness :
    normalizeE (cjToJs (.cobj [("a", .cnum 2), ("b", .cnum 1)])) =
      .ok (.cobj [("a", .cnum 2), ("b", .cnum 1)]) :=
  (c9_normalize_idempotent (.vobj [("b", .vnum 1), ("a", .vnum 2)])
    (.cobj [("a", .cnum 2), ("b", .cnum 1)]) (by rfl)).1
